import Mathlib

/-!
Verification development for the pairing-and-scoring core of the
XmasBadminton tournament application (source: `app/lib/tournament.ts`).

Modelling conventions for the shallow embedding:

* JavaScript numbers are modelled as rationals (`ℚ`); player ids as `ℕ`.
  `MatchScore` fields are modelled as `JsNum`, a rational extended with the
  non-finite JavaScript values `NaN`/`Infinity`/`-Infinity`, because
  `applyResults` explicitly tests `Number.isFinite` on them.
* `Math.random()` produces values in `[0, 1)`.  Each use site is modelled by
  an oracle stream that is universally quantified in every theorem:
  - the Fisher–Yates shuffle takes a stream `ℕ → ℚ` of raw random values;
  - `candidates.sort(...)` in `buildPairs` uses a comparator that itself
    calls `Math.random()` (in both its streaking and non-streaking branch),
    so its outcome is an arbitrary permutation of the candidate list.  It is
    modelled by an oracle `ℕ → List ℕ → List ℕ` giving the post-sort
    candidate order of each successive sort call; theorems that need it
    assume the oracle returns permutations of its input, which is what
    `Array.prototype.sort` guarantees.  `MATCHMAKING_CONFIG.STREAK_THRESHOLD`
    and `PARTNER_BIAS` only influence which permutation arises, which the
    oracle absorbs.
  - the noise term of `courtCost` takes the raw random value as an argument,
    fed from a stream `ℕ → ℚ` indexed by a counter threaded through the
    search exactly in evaluation order.
* `pastPartners : Set<string>` is modelled as a `List String` with membership
  via `List.contains`; partner keys are the same strings the code builds.
* Thrown `Error`s are modelled with `Except String`; a thrown error discards
  all local mutation, matching what the caller of the TypeScript function can
  observe.
* `name.localeCompare` is locale-dependent, so it is passed to
  `sortLeaderboard` as an explicit comparison parameter
  `localeCompare : String → String → Int`.
-/

namespace XmasBadminton

/-- Lexicographic comparison helper for the termination measures below. -/
theorem lexOfNat {a b c d : ℕ} (h : a < c ∨ (a = c ∧ b < d)) :
    Prod.Lex (fun x y : ℕ => x < y) (fun x y : ℕ => x < y) (a, b) (c, d) := by
  rcases h with h | ⟨rfl, h⟩
  · exact Prod.Lex.left _ _ h
  · exact Prod.Lex.right _ h

/-- Side of a court, from `type Side = "SIDE_1" | "SIDE_2"`. -/
inductive Side where
  | SIDE_1
  | SIDE_2
deriving DecidableEq, Repr

/-- `interface Player` (id, name, wins, pointDiff, lossStreak).  The numeric
fields are JavaScript numbers, modelled as `ℚ` (the id as `ℕ`, per the data
model ids are positive integers).  The fields are total here, so the
`?? 0` / `typeof === "number"` guards of the source are identities. -/
structure Player where
  id : ℕ
  name : String
  wins : ℚ
  pointDiff : ℚ
  lossStreak : ℚ
deriving DecidableEq, Repr

/-- `interface Match` (courtNumber, side1, side2). -/
structure Match where
  courtNumber : ℕ
  side1 : List Player
  side2 : List Player
deriving DecidableEq, Repr

/-- `interface Pairing` (p1, p2). -/
structure Pairing where
  p1 : Player
  p2 : Player
deriving DecidableEq, Repr

/-- A JavaScript number as stored in a `MatchScore`: either a finite value
(modelled as `ℚ`) or one of the non-finite values rejected by
`Number.isFinite`. -/
inductive JsNum where
  | num (q : ℚ)
  | nan
  | inf
  | negInf
deriving DecidableEq, Repr

/-- `Number.isFinite`. -/
def JsNum.isFinite : JsNum → Bool
  | .num _ => true
  | _ => false

/-- `type MatchScore = { side1: number; side2: number }`. -/
structure MatchScore where
  side1 : JsNum
  side2 : JsNum
deriving DecidableEq, Repr

/-- The fields of `MATCHMAKING_CONFIG`. -/
structure MatchmakingConfig where
  STREAK_THRESHOLD : ℚ
  PARTNER_BIAS : ℚ
  LOW_BALANCE_PENALTY : ℚ
  BASE_NOISE : ℚ
  STREAK_NOISE : ℚ
  MAX_NOISE : ℚ

/-- `MATCHMAKING_CONFIG` with its literal values.  `STREAK_THRESHOLD` and
`PARTNER_BIAS` are only used inside the randomized candidate comparator of
`buildPairs`, whose outcome the reorder oracle absorbs (see module
docstring). -/
def MATCHMAKING_CONFIG : MatchmakingConfig :=
  { STREAK_THRESHOLD := 3
    PARTNER_BIAS := 1
    LOW_BALANCE_PENALTY := 3
    BASE_NOISE := 15/100
    STREAK_NOISE := 15/100
    MAX_NOISE := 35/100 }

/-- `partnerKey(a, b)`: the canonical string `min(id)-max(id)`. -/
def partnerKey (a b : Player) : String :=
  if a.id < b.id then toString a.id ++ "-" ++ toString b.id
  else toString b.id ++ "-" ++ toString a.id

/-- Call states of the backtracking search of `buildPairs`.

`node avail k` is a call of `buildPairs` itself where `avail` is the sublist
of the shuffled players that are not yet `used` (the source keeps the full
array plus a `used : boolean[]`; the first unused index is then the head of
`avail` and the candidate indices `j` enumerate positions of its tail).
`scan p1 rest cands k` is the `for (const j of candidates)` loop with the
not-yet-tried candidate positions `cands` (positions into `rest`).  `k`
counts the sort calls consumed so far, indexing the reorder oracle. -/
inductive BpCall where
  | node (avail : List Player) (k : ℕ)
  | scan (p1 : Player) (rest : List Player) (cands : List ℕ) (k : ℕ)

/-- The backtracking search of `buildPairs`.  Returns the pairs found below
the current call (the source accumulates them in `current` and returns a
boolean; on success the pairs assembled here are exactly `current`'s new
entries in push order) together with the next oracle index.

The candidate order `reorder k (List.range rest.length)` models
`candidates.sort(...)` with its randomized comparator; a candidate position
`j` outside `rest` (impossible when the oracle returns permutations, as
`Array.prototype.sort` does) is skipped. -/
def buildPairsAux (pastPartners : List String) (allowRepeat : Bool)
    (reorder : ℕ → List ℕ → List ℕ) : BpCall → Option (List Pairing) × ℕ
  | .node [] k => (some [], k)
  | .node (p1 :: rest) k =>
    buildPairsAux pastPartners allowRepeat reorder
      (.scan p1 rest (reorder k (List.range rest.length)) (k + 1))
  | .scan _ _ [] k => (none, k)
  | .scan p1 rest (j :: cs) k =>
    if hj : j < rest.length then
      let p2 := rest.get ⟨j, hj⟩
      if !allowRepeat && pastPartners.contains (partnerKey p1 p2) then
        buildPairsAux pastPartners allowRepeat reorder (.scan p1 rest cs k)
      else
        match buildPairsAux pastPartners allowRepeat reorder (.node (rest.eraseIdx j) k) with
        | (some ps, k2) => (some (⟨p1, p2⟩ :: ps), k2)
        | (none, k2) => buildPairsAux pastPartners allowRepeat reorder (.scan p1 rest cs k2)
    else buildPairsAux pastPartners allowRepeat reorder (.scan p1 rest cs k)
termination_by t => match t with
  | .node avail _ => (avail.length, 0)
  | .scan _ rest cands _ => (rest.length, cands.length)
decreasing_by
  all_goals refine lexOfNat ?_
  all_goals simp only [List.length_cons, List.length_eraseIdx]
  all_goals try omega
  all_goals try exact Or.inr ⟨trivial, Nat.lt_succ_self _⟩
  all_goals rw [if_pos hj]
  all_goals exact Or.inl (by omega)

/-- `buildPairs(shuffled, used, current, pastPartners, allowRepeat)`: the
entry point of the search, starting with all players unused and `current`
empty; `k` is the first oracle index to use. -/
def buildPairs (shuffled : List Player) (pastPartners : List String)
    (allowRepeat : Bool) (reorder : ℕ → List ℕ → List ℕ) (k : ℕ) :
    Option (List Pairing) × ℕ :=
  buildPairsAux pastPartners allowRepeat reorder (.node shuffled k)

/-- `teamWins`: win sum for a doubles team. -/
def teamWins (p : Pairing) : ℚ :=
  p.p1.wins + p.p2.wins

/-- `hasStreaker`: whether a team includes a player with `lossStreak >= 3`
(the literal 3 of the source, not the config field). -/
def hasStreaker (p : Pairing) : Bool :=
  decide (3 ≤ p.p1.lossStreak) || decide (3 ≤ p.p2.lossStreak)

/-- `courtCost(a, b)` with the raw `Math.random()` value `r` passed in:
`imbalance * 1.0 + lowBalancePenalty + noise` where
`noise = (r * 2 - 1) * min(rawNoise, MAX_NOISE)`. -/
def courtCost (a b : Pairing) (r : ℚ) : ℚ :=
  let imbalance := |teamWins a - teamWins b|
  let streakersPresent := hasStreaker a || hasStreaker b
  let lowBalancePenalty :=
    if streakersPresent && decide (3 ≤ imbalance) then
      (imbalance - 2) * MATCHMAKING_CONFIG.LOW_BALANCE_PENALTY
    else 0
  let rawNoise :=
    MATCHMAKING_CONFIG.BASE_NOISE +
      (if streakersPresent then MATCHMAKING_CONFIG.STREAK_NOISE else 0)
  let noiseMagnitude := min rawNoise MATCHMAKING_CONFIG.MAX_NOISE
  let noise := (r * 2 - 1) * noiseMagnitude
  imbalance * 1 + lowBalancePenalty + noise

/-- Call states of the branch-and-bound `dfs` inside `optimizeCourts`.

`dfs remaining chosen costSoFar best k` is a call `dfs(costSoFar)` with the
current mutable `remaining`/`chosen` arrays and the running best
(`best = none` encodes `best === null`, `bestCost === Infinity`; otherwise it
carries `(best, bestCost)`).  `loop first pre todo ...` is the
`for (let i = 1; ...)` loop over the possible opponents of
`first = remaining[0]`: the positions already tried are `pre` (in order),
the ones still to try are `todo` (so `remaining = first :: pre ++ todo`).
`k` indexes the cost-noise oracle. -/
inductive OcCall where
  | dfs (remaining chosen : List Pairing) (costSoFar : ℚ)
      (best : Option (List Pairing × ℚ)) (k : ℕ)
  | loop (first : Pairing) (pre todo chosen : List Pairing) (costSoFar : ℚ)
      (best : Option (List Pairing × ℚ)) (k : ℕ)

/-- The `dfs` of `optimizeCourts` (branch-and-bound over all pairings of
pairs onto courts). -/
def optimizeCourtsAux (numCourts : ℕ) (rand : ℕ → ℚ) :
    OcCall → Option (List Pairing × ℚ) × ℕ
  | .dfs remaining chosen costSoFar best k =>
    if chosen.length = numCourts * 2 then
      match best with
      | none => (some (chosen, costSoFar), k)
      | some (bl, bc) =>
        if costSoFar < bc then (some (chosen, costSoFar), k) else (some (bl, bc), k)
    else
      match remaining with
      | [] => (best, k)
      | first :: rest =>
        optimizeCourtsAux numCourts rand (.loop first [] rest chosen costSoFar best k)
  | .loop _ _ [] _ _ best k => (best, k)
  | .loop first pre (second :: post) chosen costSoFar best k =>
    let c := courtCost first second (rand k)
    let skip : Bool :=
      match best with
      | some (_, bc) => decide (bc ≤ costSoFar + c)
      | none => false
    if skip then
      optimizeCourtsAux numCourts rand
        (.loop first (pre ++ [second]) post chosen costSoFar best (k + 1))
    else
      match optimizeCourtsAux numCourts rand
          (.dfs (pre ++ post) (chosen ++ [first, second]) (costSoFar + c) best (k + 1)) with
      | (best2, k2) =>
        optimizeCourtsAux numCourts rand
          (.loop first (pre ++ [second]) post chosen costSoFar best2 k2)
termination_by t => match t with
  | .dfs remaining _ _ _ _ => (remaining.length, remaining.length + 1)
  | .loop _ pre todo _ _ _ _ => (pre.length + todo.length + 1, todo.length + 1)
decreasing_by
  all_goals refine lexOfNat ?_
  all_goals simp only [List.length_cons, List.length_append, List.length_nil]
  all_goals omega

/-- `optimizeCourts(pairs, numCourts)`: run the branch-and-bound from the
initial state and return the best arrangement found (or `null`). -/
def optimizeCourts (pairs : List Pairing) (numCourts : ℕ) (rand : ℕ → ℚ) :
    Option (List Pairing) :=
  ((optimizeCourtsAux numCourts rand (.dfs pairs [] 0 none 0)).1).map Prod.fst

/-- `interface GenerateRoundResult`. -/
structure GenerateRoundResult where
  «matches» : List Match
  usedPairs : List Pairing
  fallback : Bool
deriving DecidableEq, Repr

/-- One Fisher–Yates swap step: `[arr[i], arr[j]] = [arr[j], arr[i]]`.
When either index is out of bounds the list is returned unchanged (with
`Math.random() ∈ [0, 1)` the source index `j ≤ i` is always in bounds). -/
def listSwap {α : Type} (l : List α) (i j : ℕ) : List α :=
  match l[i]?, l[j]? with
  | some a, some b => (l.set i b).set j a
  | _, _ => l

/-- The Fisher–Yates loop `for (let i = length - 1; i > 0; i--)`, with
`j = Math.floor(rand i * (i + 1))`; the pattern `i + 1` is the current loop
index. -/
def fisherYatesGo (rand : ℕ → ℚ) : ℕ → List Player → List Player
  | 0, l => l
  | i + 1, l =>
    fisherYatesGo rand i (listSwap l (i + 1) (⌊rand (i + 1) * ((i : ℚ) + 2)⌋.toNat))

/-- The in-place shuffle of `generateRoundMatchesAvoidingPartners` applied to
`[...players]`. -/
def fisherYates (rand : ℕ → ℚ) (players : List Player) : List Player :=
  fisherYatesGo rand (players.length - 1) players

/-- The match-building loop of `generateRoundMatchesAvoidingPartners`:
`for (let i = 0; i + 1 < orderedPairs.length && court <= numCourts; i += 2)`.
-/
def buildMatchesFromPairs : List Pairing → ℕ → ℕ → List Match
  | t1 :: t2 :: restPairs, court, numCourts =>
    if court ≤ numCourts then
      { courtNumber := court, side1 := [t1.p1, t1.p2], side2 := [t2.p1, t2.p2] }
        :: buildMatchesFromPairs restPairs (court + 1) numCourts
    else []
  | _, _, _ => []

/-- The total-fallback loop: consecutive groups of 4 shuffled players,
`for (let i = 0; i + 3 < shuffled.length && court <= numCourts; i += 4)`. -/
def fallbackMatches : List Player → ℕ → ℕ → List Match
  | a :: b :: c :: d :: restPlayers, court, numCourts =>
    if court ≤ numCourts then
      { courtNumber := court, side1 := [a, b], side2 := [c, d] }
        :: fallbackMatches restPlayers (court + 1) numCourts
    else []
  | _, _, _ => []

/-- `generateRoundMatchesAvoidingPartners(players, numCourts, pastPartners)`.
`shuffleRand`, `reorder` and `costRand` are the random oracles of the
shuffle, the candidate sort and the cost noise (see module docstring). -/
def generateRoundMatchesAvoidingPartners (players : List Player) (numCourts : ℕ)
    (pastPartners : List String) (shuffleRand : ℕ → ℚ)
    (reorder : ℕ → List ℕ → List ℕ) (costRand : ℕ → ℚ) :
    Except String GenerateRoundResult :=
  if players.length < numCourts * 4 then
    .error "Not enough players for all courts"
  else
    let shuffled := fisherYates shuffleRand players
    match buildPairs shuffled pastPartners false reorder 0 with
    | (some roundPairs, _) =>
      let orderedPairs := (optimizeCourts roundPairs numCourts costRand).getD roundPairs
      .ok { «matches» := buildMatchesFromPairs orderedPairs 1 numCourts
            usedPairs := roundPairs
            fallback := false }
    | (none, k1) =>
      match buildPairs shuffled pastPartners true reorder k1 with
      | (some roundPairs, _) =>
        let orderedPairs := (optimizeCourts roundPairs numCourts costRand).getD roundPairs
        .ok { «matches» := buildMatchesFromPairs orderedPairs 1 numCourts
              usedPairs := roundPairs
              fallback := true }
      | (none, _) =>
        .ok { «matches» := fallbackMatches shuffled 1 numCourts
              usedPairs := []
              fallback := true }

/-- Update the entry of the cloned player array that `byId.get(p.id)` aliases:
`byId` maps each id to the last clone inserted with that id, so the update
hits the last occurrence; a missing id (`if (!u) continue`) leaves the list
unchanged. -/
def updateLast (pid : ℕ) (f : Player → Player) : List Player → List Player
  | [] => []
  | p :: rest =>
    if (rest.map Player.id).contains pid then p :: updateLast pid f rest
    else if p.id = pid then f p :: rest
    else p :: rest

/-- The side-1 update of `applyResults` for one player object `u`. -/
def side1Update (diff : ℚ) (winnerSide : Side) (u : Player) : Player :=
  let u1 := { u with pointDiff := u.pointDiff + diff }
  if winnerSide = Side.SIDE_1 then { u1 with wins := u1.wins + 1, lossStreak := 0 }
  else { u1 with lossStreak := u1.lossStreak + 1 }

/-- The side-2 update of `applyResults` for one player object `u`. -/
def side2Update (diff : ℚ) (winnerSide : Side) (u : Player) : Player :=
  let u1 := { u with pointDiff := u.pointDiff - diff }
  if winnerSide = Side.SIDE_2 then { u1 with wins := u1.wins + 1, lossStreak := 0 }
  else { u1 with lossStreak := u1.lossStreak + 1 }

/-- The per-match mutation of `applyResults` after validation: the side-1
loop followed by the side-2 loop, with `diff = s1 - s2` and
`winnerSide = diff > 0 ? SIDE_1 : SIDE_2`. -/
def applyMatchScore (m : Match) (s1 s2 : ℚ) (updated : List Player) : List Player :=
  let diff := s1 - s2
  let winnerSide : Side := if 0 < diff then .SIDE_1 else .SIDE_2
  let afterSide1 :=
    m.side1.foldl (fun acc p => updateLast p.id (side1Update diff winnerSide) acc) updated
  m.side2.foldl (fun acc p => updateLast p.id (side2Update diff winnerSide) acc) afterSide1

/-- The `for (const match of matches)` loop of `applyResults`, threading the
cloned player array and throwing on the first invalid score entry. -/
def applyResultsGo (scoresByCourt : ℕ → Option MatchScore) :
    List Match → List Player → Except String (List Player)
  | [], updated => .ok updated
  | m :: rest, updated =>
    match scoresByCourt m.courtNumber with
    | none => .error ("Missing score for court " ++ toString m.courtNumber)
    | some score =>
      match score.side1, score.side2 with
      | .num s1, .num s2 =>
        if s1 < 0 ∨ s2 < 0 then .error ("Negative score on court " ++ toString m.courtNumber)
        else if s1 = s2 then .error ("Scores cannot be equal on court " ++ toString m.courtNumber)
        else applyResultsGo scoresByCourt rest (applyMatchScore m s1 s2 updated)
      | _, _ => .error ("Invalid score on court " ++ toString m.courtNumber)

/-- `applyResults(players, matches, scoresByCourt)`.  The initial clone
`players.map(p => ({...p, lossStreak: ...}))` is the identity here because
`lossStreak` is a total field. -/
def applyResults (players : List Player) («matches» : List Match)
    (scoresByCourt : ℕ → Option MatchScore) : Except String (List Player) :=
  applyResultsGo scoresByCourt «matches» players

/-- The comparator of `sortLeaderboard` (a negative value means `a` sorts
before `b`): wins descending, then pointDiff descending, then
`a.name.localeCompare(b.name)`. -/
def leaderboardCmp (localeCompare : String → String → Int) (a b : Player) : ℚ :=
  if b.wins ≠ a.wins then b.wins - a.wins
  else if b.pointDiff ≠ a.pointDiff then b.pointDiff - a.pointDiff
  else (localeCompare a.name b.name : ℚ)

/-- `sortLeaderboard(players)`: `[...players].sort(comparator)`.
`Array.prototype.sort` with a consistent comparator produces the stable
order of the comparator, modelled by a stable insertion sort on
`comparator ≤ 0`.  `localeCompare` is the (locale-dependent) string
comparison, passed explicitly. -/
def sortLeaderboard (localeCompare : String → String → Int)
    (players : List Player) : List Player :=
  players.insertionSort (fun a b => leaderboardCmp localeCompare a b ≤ 0)

/-- Lexicographic three-way comparison of code-point sequences. -/
def listCmp : List ℕ → List ℕ → Int
  | [], [] => 0
  | [], _ :: _ => -1
  | _ :: _, [] => 1
  | a :: s, b :: t => if a < b then -1 else if b < a then 1 else listCmp s t

/-- A case-sensitive lexicographic (code-point) realisation of
`localeCompare`, as described by the specification. -/
def strCmpInt (s t : String) : Int :=
  listCmp (s.data.map Char.toNat) (t.data.map Char.toNat)

/-- The players of a list of pairings, in order: used to state that pairs
partition a roster. -/
def pairingPlayers (ps : List Pairing) : List Player :=
  ps.flatMap fun pr => [pr.p1, pr.p2]

/-- All pairs of `ps` avoid the history `past`. -/
def PairsAvoid (past : List String) (ps : List Pairing) : Prop :=
  ∀ pr ∈ ps, past.contains (partnerKey pr.p1 pr.p2) = false

/-- `avail` admits a perfect partner pairing none of whose keys is in
`past` (the strict-search success condition). -/
def AvoidingPairing (past : List String) (avail : List Player) : Prop :=
  ∃ ps : List Pairing, (pairingPlayers ps).Perm avail ∧ PairsAvoid past ps

/-- The ids of the participants of a match, side 1 then side 2. -/
def matchIds (m : Match) : List ℕ :=
  (m.side1 ++ m.side2).map Player.id

/-- The ids of all participants of a round. -/
def roundIds (ms : List Match) : List ℕ :=
  ms.flatMap matchIds

/-- The validation of one score entry in `applyResults`, with the message of
the error it throws (`none` when the entry is accepted): missing entry,
non-finite value, negative value, tie — checked in source order. -/
def scoreError (court : ℕ) (s : Option MatchScore) : Option String :=
  match s with
  | none => some ("Missing score for court " ++ toString court)
  | some score =>
    match score.side1, score.side2 with
    | .num s1, .num s2 =>
      if s1 < 0 ∨ s2 < 0 then some ("Negative score on court " ++ toString court)
      else if s1 = s2 then some ("Scores cannot be equal on court " ++ toString court)
      else none
    | _, _ => some ("Invalid score on court " ++ toString court)

/-- The side-1 value a validated score entry carries (junk `0` when the entry
would be rejected, in which case it is never used). -/
def scoreS1 : Option MatchScore → ℚ
  | some score =>
    match score.side1 with
    | .num q => q
    | _ => 0
  | none => 0

/-- The side-2 value a validated score entry carries (junk `0` when the entry
would be rejected, in which case it is never used). -/
def scoreS2 : Option MatchScore → ℚ
  | some score =>
    match score.side2 with
    | .num q => q
    | _ => 0
  | none => 0

/-! ### Permutation toolkit -/

/-- Moving the `m`-th element of a list to the front while writing `a` into
its slot permutes `a` onto the front. -/
theorem get_cons_set_perm {α : Type} (t : List α) (m : ℕ) (a : α)
    (h : m < t.length) : (t.get ⟨m, h⟩ :: t.set m a).Perm (a :: t) := by
  induction t generalizing m with
  | nil => simp at h
  | cons b t ih =>
    cases m with
    | zero => simpa [List.set] using List.Perm.swap a b t
    | succ m =>
      have hm : m < t.length := by simpa using h
      have h2 : ((b :: t).get ⟨m + 1, h⟩ :: (b :: t).set (m + 1) a)
          = t.get ⟨m, hm⟩ :: b :: t.set m a := by simp [List.set]
      rw [h2]
      exact (List.Perm.swap b _ _).trans
        ((List.Perm.cons b (ih m hm)).trans (List.Perm.swap a b t))

/-- Swapping two positions of a list is a permutation. -/
theorem listSwap_perm {α : Type} (l : List α) (i j : ℕ) :
    (listSwap l i j).Perm l := by
  unfold listSwap
  rcases hi : l[i]? with _ | a
  · simp
  rcases hj : l[j]? with _ | b
  · simp
  have hi' : i < l.length := (List.getElem?_eq_some_iff.mp hi).1
  have hj' : j < l.length := (List.getElem?_eq_some_iff.mp hj).1
  have ha : l.get ⟨i, hi'⟩ = a := by
    have := (List.getElem?_eq_some_iff.mp hi).2; simpa using this
  have hb : l.get ⟨j, hj'⟩ = b := by
    have := (List.getElem?_eq_some_iff.mp hj).2; simpa using this
  simp only []
  -- (l.set i b).set j a ~ l
  have hlen : j < (l.set i b).length := by simpa using hj'
  have hget : (l.set i b).get ⟨j, hlen⟩ :: ((l.set i b).set j a) |>.Perm (a :: l.set i b) :=
    get_cons_set_perm (l.set i b) j a hlen
  have hget2 : (l.get ⟨i, hi'⟩ :: l.set i b).Perm (b :: l) :=
    get_cons_set_perm l i b hi'
  by_cases hij : i = j
  · subst hij
    have : (l.set i b).set i a = l.set i a := by simp [List.set_set]
    rw [this]
    have h1 : (l.get ⟨i, hi'⟩ :: l.set i a).Perm (a :: l) := get_cons_set_perm l i a hi'
    rw [ha] at h1
    exact h1.cons_inv
  · have hgj : (l.set i b).get ⟨j, hlen⟩ = l.get ⟨j, hj'⟩ := by
      simp [List.get_eq_getElem, List.getElem_set, hij]
    rw [hgj, hb] at hget
    -- hget : b :: (l.set i b).set j a ~ a :: l.set i b
    rw [ha] at hget2
    -- hget2 : a :: l.set i b ~ b :: l
    have := hget.trans hget2
    -- b :: (l.set i b).set j a ~ b :: l
    exact this.cons_inv

/-- Each Fisher–Yates step permutes, so the whole loop permutes. -/
theorem fisherYatesGo_perm (rand : ℕ → ℚ) (i : ℕ) (l : List Player) :
    (fisherYatesGo rand i l).Perm l := by
  induction i generalizing l with
  | zero => simp [fisherYatesGo]
  | succ i ih =>
    exact (ih _).trans (listSwap_perm _ _ _)

/-- The shuffled roster is a permutation of the input roster, for every
random stream. -/
theorem fisherYates_perm (rand : ℕ → ℚ) (players : List Player) :
    (fisherYates rand players).Perm players :=
  fisherYatesGo_perm rand _ players

/-- Selecting an element by position and erasing that position permutes it
onto the front. -/
theorem get_cons_eraseIdx_perm (l : List Player) (j : ℕ) (h : j < l.length) :
    (l.get ⟨j, h⟩ :: l.eraseIdx j).Perm l := by
  have h1 : l.Perm (l.get ⟨j, h⟩ :: l.erase (l.get ⟨j, h⟩)) := by
    exact List.perm_cons_erase (List.get_mem l j h)
  have h2 : (l.erase (l.get ⟨j, h⟩)).Perm (l.eraseIdx j) := by
    simpa [List.get_eq_getElem] using List.erase_getElem (l := l) (i := j) h
  exact ((h1.trans (List.Perm.cons _ h2))).symm

/-! ### pairingPlayers toolkit -/

theorem pairingPlayers_nil : pairingPlayers [] = [] := rfl

theorem pairingPlayers_cons (pr : Pairing) (ps : List Pairing) :
    pairingPlayers (pr :: ps) = pr.p1 :: pr.p2 :: pairingPlayers ps := rfl

theorem pairingPlayers_length (ps : List Pairing) :
    (pairingPlayers ps).length = 2 * ps.length := by
  induction ps with
  | nil => simp [pairingPlayers]
  | cons pr ps ih =>
    rw [pairingPlayers_cons]
    simp only [List.length_cons, ih]
    ring

theorem pairingPlayers_perm {ps qs : List Pairing} (h : ps.Perm qs) :
    (pairingPlayers ps).Perm (pairingPlayers qs) :=
  List.Perm.flatMap_right _ h

theorem pairingPlayers_append (ps qs : List Pairing) :
    pairingPlayers (ps ++ qs) = pairingPlayers ps ++ pairingPlayers qs := by
  simp [pairingPlayers]

/-! ### Unfolding lemmas for the backtracking search -/

theorem bp_node_nil (past : List String) (ar : Bool) (ro : ℕ → List ℕ → List ℕ)
    (k : ℕ) : buildPairsAux past ar ro (.node [] k) = (some [], k) := by
  simp only [buildPairsAux]

theorem bp_node_cons (past : List String) (ar : Bool) (ro : ℕ → List ℕ → List ℕ)
    (p1 : Player) (rest : List Player) (k : ℕ) :
    buildPairsAux past ar ro (.node (p1 :: rest) k)
      = buildPairsAux past ar ro (.scan p1 rest (ro k (List.range rest.length)) (k + 1)) := by
  simp only [buildPairsAux]

theorem bp_scan_nil (past : List String) (ar : Bool) (ro : ℕ → List ℕ → List ℕ)
    (p1 : Player) (rest : List Player) (k : ℕ) :
    buildPairsAux past ar ro (.scan p1 rest [] k) = (none, k) := by
  simp only [buildPairsAux]

theorem bp_scan_oob (past : List String) (ar : Bool) (ro : ℕ → List ℕ → List ℕ)
    (p1 : Player) (rest : List Player) (j : ℕ) (cs : List ℕ) (k : ℕ)
    (hj : ¬ j < rest.length) :
    buildPairsAux past ar ro (.scan p1 rest (j :: cs) k)
      = buildPairsAux past ar ro (.scan p1 rest cs k) := by
  simp only [buildPairsAux, hj]
  simp

theorem bp_scan_skip (past : List String) (ar : Bool) (ro : ℕ → List ℕ → List ℕ)
    (p1 : Player) (rest : List Player) (j : ℕ) (cs : List ℕ) (k : ℕ)
    (hj : j < rest.length)
    (hg : (!ar && past.contains (partnerKey p1 (rest.get ⟨j, hj⟩))) = true) :
    buildPairsAux past ar ro (.scan p1 rest (j :: cs) k)
      = buildPairsAux past ar ro (.scan p1 rest cs k) := by
  simp only [buildPairsAux, hj, hg]
  simp

theorem bp_scan_go (past : List String) (ar : Bool) (ro : ℕ → List ℕ → List ℕ)
    (p1 : Player) (rest : List Player) (j : ℕ) (cs : List ℕ) (k : ℕ)
    (hj : j < rest.length)
    (hg : ¬ (!ar && past.contains (partnerKey p1 (rest.get ⟨j, hj⟩))) = true) :
    buildPairsAux past ar ro (.scan p1 rest (j :: cs) k)
      = match buildPairsAux past ar ro (.node (rest.eraseIdx j) k) with
        | (some ps, k2) => (some (⟨p1, rest.get ⟨j, hj⟩⟩ :: ps), k2)
        | (none, k2) => buildPairsAux past ar ro (.scan p1 rest cs k2) := by
  simp only [buildPairsAux, hj, hg]
  simp

/-! ### Soundness of the backtracking search -/

/-- The players a call of the search is responsible for pairing. -/
def bpCallAvail : BpCall → List Player
  | .node avail _ => avail
  | .scan p1 rest _ _ => p1 :: rest

/-- Any pair list returned by the backtracking search partitions exactly the
players handed to it, and — in strict mode — avoids all keys of the
history. -/
theorem buildPairsAux_sound (past : List String) (ar : Bool)
    (reorder : ℕ → List ℕ → List ℕ) (c : BpCall) : ∀ ps k2,
    buildPairsAux past ar reorder c = (some ps, k2) →
    (pairingPlayers ps).Perm (bpCallAvail c) ∧ (ar = false → PairsAvoid past ps) := by
  induction c using buildPairsAux.induct past ar reorder with
  | case1 k =>
    intro ps k2 h
    rw [bp_node_nil] at h
    obtain ⟨h1, h2⟩ := Prod.mk.injEq .. ▸ h
    obtain rfl := (Option.some.injEq .. ▸ h1)
    refine ⟨by simp [pairingPlayers, bpCallAvail], ?_⟩
    intro _ pr hpr
    simp at hpr
  | case2 p1 rest k ih =>
    intro ps k2 h
    rw [bp_node_cons] at h
    exact ih ps k2 h
  | case3 p1 rest k =>
    intro ps k2 h
    rw [bp_scan_nil] at h
    simp at h
  | case4 p1 rest j cs k hj p2 hguard ih =>
    intro ps k2 h
    rw [bp_scan_skip past ar reorder p1 rest j cs k hj hguard] at h
    exact ih ps k2 h
  | case5 p1 rest j cs k hj p2 hguard ps0 k0 hnode ihnode =>
    intro ps k2 h
    rw [bp_scan_go past ar reorder p1 rest j cs k hj hguard, hnode] at h
    simp only [] at h
    obtain ⟨h1, h2⟩ := Prod.mk.injEq .. ▸ h
    obtain rfl := (Option.some.injEq .. ▸ h1)
    obtain ⟨hperm, havoid⟩ := ihnode ps0 k0 hnode
    constructor
    · rw [pairingPlayers_cons]
      simp only [bpCallAvail] at hperm ⊢
      refine (List.Perm.cons p1 ((List.Perm.cons _ hperm).trans ?_))
      exact get_cons_eraseIdx_perm rest j hj
    · intro har pr hpr
      rcases List.mem_cons.mp hpr with hpr | hpr
      · subst hpr
        subst har
        simp only [Bool.not_false, Bool.true_and] at hguard
        simpa using hguard
      · exact havoid har pr hpr
  | case6 p1 rest j cs k hj p2 hguard k0 hnode ihnode ihcont =>
    intro ps k2 h
    rw [bp_scan_go past ar reorder p1 rest j cs k hj hguard, hnode] at h
    simp only [] at h
    exact ihcont ps k2 h
  | case7 p1 rest j cs k hj ih =>
    intro ps k2 h
    rw [bp_scan_oob past ar reorder p1 rest j cs k hj] at h
    exact ih ps k2 h

/-- Soundness at the entry point: a successful `buildPairs` returns pairs
that partition the shuffled roster. -/
theorem buildPairs_sound (shuffled : List Player) (past : List String)
    (ar : Bool) (reorder : ℕ → List ℕ → List ℕ) (k : ℕ) (ps : List Pairing)
    (k2 : ℕ) (h : buildPairs shuffled past ar reorder k = (some ps, k2)) :
    (pairingPlayers ps).Perm shuffled ∧ (ar = false → PairsAvoid past ps) :=
  buildPairsAux_sound past ar reorder (.node shuffled k) ps k2 h

/-! ### Completeness of the backtracking search -/

/-- The partner key is symmetric in its two players. -/
theorem partnerKey_comm (a b : Player) : partnerKey a b = partnerKey b a := by
  unfold partnerKey
  rcases lt_trichotomy a.id b.id with h | h | h
  · rw [if_pos h, if_neg (by omega)]
  · rw [if_neg (by omega), if_neg (by omega), h]
  · rw [if_neg (by omega), if_pos h]

theorem mem_pairingPlayers {a : Player} {ps : List Pairing} :
    a ∈ pairingPlayers ps ↔ ∃ pr ∈ ps, a = pr.p1 ∨ a = pr.p2 := by
  simp only [pairingPlayers, List.mem_flatMap, List.mem_cons, List.mem_singleton]
  constructor
  · rintro ⟨pr, hpr, h⟩
    exact ⟨pr, hpr, by simpa using h⟩
  · rintro ⟨pr, hpr, h⟩
    exact ⟨pr, hpr, by simpa using h⟩

/-- Peeling one step off an avoiding pairing of `p1 :: rest`: some position
`j` of `rest` holds a partner for `p1` whose key is not in the history, such
that the rest still admits an avoiding pairing. -/
theorem avoidingPairing_step (past : List String) (p1 : Player)
    (rest : List Player) (hav : AvoidingPairing past (p1 :: rest)) :
    ∃ (j : ℕ) (hj : j < rest.length),
      past.contains (partnerKey p1 (rest.get ⟨j, hj⟩)) = false ∧
      AvoidingPairing past (rest.eraseIdx j) := by
  obtain ⟨ps, hperm, havoid⟩ := hav
  have hp1 : p1 ∈ pairingPlayers ps := hperm.mem_iff.mpr (List.mem_cons_self _ _)
  obtain ⟨pr, hprmem, hside⟩ := mem_pairingPlayers.mp hp1
  have hconsperm : ps.Perm (pr :: ps.erase pr) := List.perm_cons_erase hprmem
  have h2 : (pairingPlayers ps).Perm
      (pr.p1 :: pr.p2 :: pairingPlayers (ps.erase pr)) := by
    have := pairingPlayers_perm hconsperm
    rwa [pairingPlayers_cons] at this
  -- `q` is p1's partner in `pr`
  have main : ∃ q : Player, partnerKey p1 q = partnerKey pr.p1 pr.p2 ∧
      (p1 :: q :: pairingPlayers (ps.erase pr)).Perm
        (pr.p1 :: pr.p2 :: pairingPlayers (ps.erase pr)) := by
    rcases hside with h | h
    · refine ⟨pr.p2, ?_, ?_⟩
      · rw [h]
      · rw [h]
    · refine ⟨pr.p1, ?_, ?_⟩
      · rw [h, partnerKey_comm]
      · rw [h]
        exact List.Perm.swap _ _ _
  obtain ⟨q, hkey, h3pre⟩ := main
  have h3 : (p1 :: q :: pairingPlayers (ps.erase pr)).Perm (p1 :: rest) :=
    h3pre.trans (h2.symm.trans hperm)
  have h4 : (q :: pairingPlayers (ps.erase pr)).Perm rest := h3.cons_inv
  have hqmem : q ∈ rest := h4.mem_iff.mp (List.mem_cons_self _ _)
  obtain ⟨j, hj, hget⟩ := List.getElem_of_mem hqmem
  have hgetq : rest.get ⟨j, hj⟩ = q := by simpa [List.get_eq_getElem] using hget
  refine ⟨j, hj, ?_, ?_⟩
  · rw [hgetq, hkey]
    exact havoid pr hprmem
  · refine ⟨ps.erase pr, ?_, ?_⟩
    · have h5 : (q :: rest.eraseIdx j).Perm rest := by
        have := get_cons_eraseIdx_perm rest j hj
        rwa [hgetq] at this
      exact (h4.trans h5.symm).cons_inv
    · intro pr2 hpr2
      exact havoid pr2 (List.mem_of_mem_erase hpr2)

/-- If some candidate in the remaining list is valid, unblocked and leads to
a succeeding subproblem, the candidate loop succeeds (whatever the other
candidates do). -/
theorem bp_scan_complete (past : List String) (ar : Bool)
    (reorder : ℕ → List ℕ → List ℕ) (p1 : Player) (rest : List Player)
    (cands : List ℕ) :
    ∀ k : ℕ,
    (∃ j ∈ cands, ∃ hj : j < rest.length,
        (!ar && past.contains (partnerKey p1 (rest.get ⟨j, hj⟩))) = false ∧
        (∀ k0, ∃ ps k2,
          buildPairsAux past ar reorder (.node (rest.eraseIdx j) k0) = (some ps, k2))) →
    ∃ ps k2, buildPairsAux past ar reorder (.scan p1 rest cands k) = (some ps, k2) := by
  induction cands with
  | nil =>
    intro k h
    obtain ⟨j, hjmem, _⟩ := h
    simp at hjmem
  | cons j0 cs ih =>
    intro k h
    obtain ⟨j, hmem, hj, hgood, hsucc⟩ := h
    by_cases hj0 : j0 < rest.length
    · by_cases hguard :
        (!ar && past.contains (partnerKey p1 (rest.get ⟨j0, hj0⟩))) = true
      · rw [bp_scan_skip past ar reorder p1 rest j0 cs k hj0 hguard]
        refine ih k ⟨j, ?_, hj, hgood, hsucc⟩
        rcases List.mem_cons.mp hmem with rfl | hmem2
        · have hgood2 :
              (!ar && past.contains (partnerKey p1 (rest.get ⟨j, hj0⟩))) = false := hgood
          rw [hgood2] at hguard
          cases hguard
        · exact hmem2
      · rw [bp_scan_go past ar reorder p1 rest j0 cs k hj0 hguard]
        rcases hres : buildPairsAux past ar reorder (.node (rest.eraseIdx j0) k)
          with ⟨r, k2⟩
        rcases r with _ | ps0
        · simp only [hres]
          refine ih k2 ⟨j, ?_, hj, hgood, hsucc⟩
          rcases List.mem_cons.mp hmem with rfl | hmem2
          · obtain ⟨ps, k3, hsome⟩ := hsucc k
            rw [hres] at hsome
            cases hsome
          · exact hmem2
        · simp only [hres]
          exact ⟨_, _, rfl⟩
    · rw [bp_scan_oob past ar reorder p1 rest j0 cs k hj0]
      refine ih k ⟨j, ?_, hj, hgood, hsucc⟩
      rcases List.mem_cons.mp hmem with rfl | hmem2
      · exact absurd hj hj0
      · exact hmem2

/-- Completeness of the strict search: whenever an avoiding pairing exists,
the backtracking search finds one (for every permutation oracle and every
oracle offset). -/
theorem buildPairsAux_complete (past : List String)
    (reorder : ℕ → List ℕ → List ℕ) (hre : ∀ k l, (reorder k l).Perm l) :
    ∀ n avail, avail.length ≤ n → AvoidingPairing past avail →
    ∀ k, ∃ ps k2,
      buildPairsAux past false reorder (.node avail k) = (some ps, k2) := by
  intro n
  induction n with
  | zero =>
    intro avail hlen _ k
    obtain rfl := List.length_eq_zero.mp (Nat.le_zero.mp hlen)
    exact ⟨[], k, bp_node_nil past false reorder k⟩
  | succ n ihn =>
    intro avail hlen hav k
    match avail, hlen with
    | [], _ => exact ⟨[], k, bp_node_nil past false reorder k⟩
    | p1 :: rest, hlen =>
      rw [bp_node_cons]
      obtain ⟨j, hj, hkeyfree, hav2⟩ := avoidingPairing_step past p1 rest hav
      refine bp_scan_complete past false reorder p1 rest _ _ ⟨j, ?_, hj, ?_, ?_⟩
      · exact ((hre k (List.range rest.length)).mem_iff).mpr (List.mem_range.mpr hj)
      · simpa using hkeyfree
      · intro k0
        refine ihn (rest.eraseIdx j) ?_ hav2 k0
        rw [List.length_eraseIdx]
        simp only [hj, if_true]
        simp only [List.length_cons] at hlen
        omega

/-- Completeness of the relaxed search: with `allowRepeat = true` the search
succeeds on every even-length roster (for every permutation oracle). -/
theorem buildPairsAux_relaxed_complete (past : List String)
    (reorder : ℕ → List ℕ → List ℕ) (hre : ∀ k l, (reorder k l).Perm l) :
    ∀ n avail, avail.length ≤ n → avail.length % 2 = 0 →
    ∀ k, ∃ ps k2,
      buildPairsAux past true reorder (.node avail k) = (some ps, k2) := by
  intro n
  induction n with
  | zero =>
    intro avail hlen _ k
    obtain rfl := List.length_eq_zero.mp (Nat.le_zero.mp hlen)
    exact ⟨[], k, bp_node_nil past true reorder k⟩
  | succ n ihn =>
    intro avail hlen heven k
    match avail, hlen, heven with
    | [], _, _ => exact ⟨[], k, bp_node_nil past true reorder k⟩
    | p1 :: rest, hlen, heven =>
      rw [bp_node_cons]
      have hrest : 0 < rest.length := by
        simp only [List.length_cons] at heven
        omega
      refine bp_scan_complete past true reorder p1 rest _ _ ⟨0, ?_, hrest, ?_, ?_⟩
      · exact ((hre k (List.range rest.length)).mem_iff).mpr (List.mem_range.mpr hrest)
      · simp
      · intro k0
        refine ihn (rest.eraseIdx 0) ?_ ?_ k0
        · rw [List.length_eraseIdx]
          simp only [hrest, if_true]
          simp only [List.length_cons] at hlen
          omega
        · rw [List.length_eraseIdx]
          simp only [hrest, if_true]
          simp only [List.length_cons] at heven
          omega

/-- If every subproblem below the loop fails, the whole candidate loop
fails. -/
theorem bp_scan_fails (past : List String) (ar : Bool)
    (reorder : ℕ → List ℕ → List ℕ) (p1 : Player) (rest : List Player)
    (hfail : ∀ j, j < rest.length → ∀ k0,
      (buildPairsAux past ar reorder (.node (rest.eraseIdx j) k0)).1 = none) :
    ∀ cands k, (buildPairsAux past ar reorder (.scan p1 rest cands k)).1 = none := by
  intro cands
  induction cands with
  | nil => intro k; rw [bp_scan_nil]
  | cons j0 cs ih =>
    intro k
    by_cases hj0 : j0 < rest.length
    · by_cases hguard :
        (!ar && past.contains (partnerKey p1 (rest.get ⟨j0, hj0⟩))) = true
      · rw [bp_scan_skip past ar reorder p1 rest j0 cs k hj0 hguard]
        exact ih k
      · rw [bp_scan_go past ar reorder p1 rest j0 cs k hj0 hguard]
        rcases hres : buildPairsAux past ar reorder (.node (rest.eraseIdx j0) k)
          with ⟨r, k2⟩
        rcases r with _ | ps0
        · simp only [hres]
          exact ih k2
        · have := hfail j0 hj0 k
          rw [hres] at this
          cases this
    · rw [bp_scan_oob past ar reorder p1 rest j0 cs k hj0]
      exact ih k

/-- On an odd-length roster the backtracking search always fails, in both
strict and relaxed mode, whatever the oracle does. -/
theorem buildPairsAux_odd_fails (past : List String) (ar : Bool)
    (reorder : ℕ → List ℕ → List ℕ) :
    ∀ n avail, avail.length ≤ n → avail.length % 2 = 1 →
    ∀ k, (buildPairsAux past ar reorder (.node avail k)).1 = none := by
  intro n
  induction n with
  | zero =>
    intro avail hlen hodd k
    obtain rfl := List.length_eq_zero.mp (Nat.le_zero.mp hlen)
    cases hodd
  | succ n ihn =>
    intro avail hlen hodd k
    match avail with
    | [] => cases hodd
    | p1 :: rest =>
      rw [bp_node_cons]
      refine bp_scan_fails past ar reorder p1 rest ?_ _ _
      intro j hj k0
      refine ihn (rest.eraseIdx j) ?_ ?_ k0
      · rw [List.length_eraseIdx]
        simp only [hj, if_true]
        simp only [List.length_cons] at hlen
        omega
      · rw [List.length_eraseIdx]
        simp only [hj, if_true]
        simp only [List.length_cons] at hodd
        omega

/-! ### Unfolding lemmas for the court optimizer -/

theorem oc_dfs_full_none (n : ℕ) (rand : ℕ → ℚ) (remaining chosen : List Pairing)
    (cost : ℚ) (k : ℕ) (hfull : chosen.length = n * 2) :
    optimizeCourtsAux n rand (.dfs remaining chosen cost none k)
      = (some (chosen, cost), k) := by
  rw [optimizeCourtsAux.eq_def]
  simp [hfull]

theorem oc_dfs_full_better (n : ℕ) (rand : ℕ → ℚ) (remaining chosen bl : List Pairing)
    (cost bc : ℚ) (k : ℕ) (hfull : chosen.length = n * 2) (hlt : cost < bc) :
    optimizeCourtsAux n rand (.dfs remaining chosen cost (some (bl, bc)) k)
      = (some (chosen, cost), k) := by
  rw [optimizeCourtsAux.eq_def]
  simp [hfull, hlt]

theorem oc_dfs_full_keep (n : ℕ) (rand : ℕ → ℚ) (remaining chosen bl : List Pairing)
    (cost bc : ℚ) (k : ℕ) (hfull : chosen.length = n * 2) (hlt : ¬ cost < bc) :
    optimizeCourtsAux n rand (.dfs remaining chosen cost (some (bl, bc)) k)
      = (some (bl, bc), k) := by
  rw [optimizeCourtsAux.eq_def]
  simp [hfull, hlt]

theorem oc_dfs_nil (n : ℕ) (rand : ℕ → ℚ) (chosen : List Pairing)
    (cost : ℚ) (best : Option (List Pairing × ℚ)) (k : ℕ)
    (hfull : ¬ chosen.length = n * 2) :
    optimizeCourtsAux n rand (.dfs [] chosen cost best k) = (best, k) := by
  rw [optimizeCourtsAux.eq_def]
  simp [hfull]

theorem oc_dfs_cons (n : ℕ) (rand : ℕ → ℚ) (first : Pairing)
    (rest chosen : List Pairing) (cost : ℚ) (best : Option (List Pairing × ℚ))
    (k : ℕ) (hfull : ¬ chosen.length = n * 2) :
    optimizeCourtsAux n rand (.dfs (first :: rest) chosen cost best k)
      = optimizeCourtsAux n rand (.loop first [] rest chosen cost best k) := by
  rw [optimizeCourtsAux.eq_def]
  simp [hfull]

theorem oc_loop_nil (n : ℕ) (rand : ℕ → ℚ) (first : Pairing)
    (pre chosen : List Pairing) (cost : ℚ) (best : Option (List Pairing × ℚ))
    (k : ℕ) :
    optimizeCourtsAux n rand (.loop first pre [] chosen cost best k) = (best, k) := by
  rw [optimizeCourtsAux.eq_def]

theorem oc_loop_none (n : ℕ) (rand : ℕ → ℚ) (first second : Pairing)
    (pre post chosen : List Pairing) (cost : ℚ) (k : ℕ) :
    optimizeCourtsAux n rand (.loop first pre (second :: post) chosen cost none k)
      = (match optimizeCourtsAux n rand
            (.dfs (pre ++ post) (chosen ++ [first, second])
              (cost + courtCost first second (rand k)) none (k + 1)) with
        | (best2, k2) =>
          optimizeCourtsAux n rand
            (.loop first (pre ++ [second]) post chosen cost best2 k2)) := by
  rw [optimizeCourtsAux.eq_def]
  simp

theorem oc_loop_skip (n : ℕ) (rand : ℕ → ℚ) (first second : Pairing)
    (pre post chosen bl : List Pairing) (cost bc : ℚ) (k : ℕ)
    (hskip : bc ≤ cost + courtCost first second (rand k)) :
    optimizeCourtsAux n rand
        (.loop first pre (second :: post) chosen cost (some (bl, bc)) k)
      = optimizeCourtsAux n rand
          (.loop first (pre ++ [second]) post chosen cost (some (bl, bc)) (k + 1)) := by
  rw [optimizeCourtsAux.eq_def]
  simp [hskip]

theorem oc_loop_go (n : ℕ) (rand : ℕ → ℚ) (first second : Pairing)
    (pre post chosen bl : List Pairing) (cost bc : ℚ) (k : ℕ)
    (hskip : ¬ bc ≤ cost + courtCost first second (rand k)) :
    optimizeCourtsAux n rand
        (.loop first pre (second :: post) chosen cost (some (bl, bc)) k)
      = (match optimizeCourtsAux n rand
            (.dfs (pre ++ post) (chosen ++ [first, second])
              (cost + courtCost first second (rand k)) (some (bl, bc)) (k + 1)) with
        | (best2, k2) =>
          optimizeCourtsAux n rand
            (.loop first (pre ++ [second]) post chosen cost best2 k2)) := by
  rw [optimizeCourtsAux.eq_def]
  simp [hskip]

/-! ### Invariants of the court optimizer -/

/-- The running best of a search state. -/
def ocCallBest : OcCall → Option (List Pairing × ℚ)
  | .dfs _ _ _ best _ => best
  | .loop _ _ _ _ _ best _ => best

/-- All pairs a search state is working with (the chosen prefix plus the
remaining array). -/
def ocCallPairs : OcCall → List Pairing
  | .dfs remaining chosen _ _ _ => chosen ++ remaining
  | .loop first pre todo chosen _ _ _ => chosen ++ first :: (pre ++ todo)

/-- Once a best arrangement is recorded it is never lost. -/
theorem ocAux_monotone (n : ℕ) (rand : ℕ → ℚ) (c : OcCall)
    (h : (ocCallBest c).isSome = true) :
    ((optimizeCourtsAux n rand c).1).isSome = true := by
  induction c using optimizeCourtsAux.induct n rand with
  | case1 remaining chosen cost k hfull =>
    rw [oc_dfs_full_none n rand remaining chosen cost k hfull]
    rfl
  | case2 remaining chosen cost k hfull bl bc hlt =>
    rw [oc_dfs_full_better n rand remaining chosen bl cost bc k hfull hlt]
    rfl
  | case3 remaining chosen cost k hfull bl bc hlt =>
    rw [oc_dfs_full_keep n rand remaining chosen bl cost bc k hfull hlt]
    rfl
  | case4 chosen cost best k hfull =>
    rw [oc_dfs_nil n rand chosen cost best k hfull]
    exact h
  | case5 chosen cost best k hfull first rest ih =>
    rw [oc_dfs_cons n rand first rest chosen cost best k hfull]
    exact ih h
  | case6 first pre chosen cost best k =>
    rw [oc_loop_nil]
    exact h
  | case7 first pre second post chosen cost best k c skip hskip ih =>
    rcases best with _ | ⟨bl, bc⟩
    · exact absurd (hskip : false = true) (by simp)
    · have hle : bc ≤ cost + courtCost first second (rand k) := by
        have h2 : decide (bc ≤ cost + courtCost first second (rand k)) = true := hskip
        simpa using h2
      rw [oc_loop_skip n rand first second pre post chosen bl cost bc k hle]
      exact ih h
  | case8 first pre second post chosen cost best k c skip hskip best2 k2 hdfs ihdfs ihloop =>
    rcases best with _ | ⟨bl, bc⟩
    · simp only [ocCallBest] at h
      cases h
    · have hgt : ¬ bc ≤ cost + courtCost first second (rand k) := by
        have h2 : ¬ decide (bc ≤ cost + courtCost first second (rand k)) = true := hskip
        simpa using h2
      rw [oc_loop_go n rand first second pre post chosen bl cost bc k hgt, hdfs]
      have hd : ((optimizeCourtsAux n rand
          (.dfs (pre ++ post) (chosen ++ [first, second])
            (cost + courtCost first second (rand k)) (some (bl, bc)) (k + 1))).1).isSome
          = true := ihdfs rfl
      rw [hdfs] at hd
      exact ihloop hd

/-- Rearranging the pairs floating around a loop step. -/
theorem ocPairs_shift (first second : Pairing) (pre post chosen : List Pairing) :
    ((chosen ++ [first, second]) ++ (pre ++ post)).Perm
      (chosen ++ first :: (pre ++ second :: post)) := by
  have h1 : (second :: (pre ++ post)).Perm (pre ++ second :: post) :=
    List.perm_middle.symm
  have h2 : (chosen ++ [first, second]) ++ (pre ++ post)
      = chosen ++ first :: second :: (pre ++ post) := by
    simp [List.append_assoc]
  rw [h2]
  exact List.Perm.append_left chosen (List.Perm.cons first h1)

/-- Every recorded best (and hence the final best) consists of pairs drawn
from the pairs the search started from, and has length exactly
`numCourts * 2` (records only happen at full depth). -/
theorem ocAux_best_subperm (n : ℕ) (rand : ℕ → ℚ) (pairs : List Pairing)
    (c : OcCall)
    (hpairs : (ocCallPairs c).Perm pairs)
    (hbest : ∀ l q, ocCallBest c = some (l, q) → l.Subperm pairs ∧ l.length = n * 2) :
    ∀ l q, (optimizeCourtsAux n rand c).1 = some (l, q) →
      l.Subperm pairs ∧ l.length = n * 2 := by
  induction c using optimizeCourtsAux.induct n rand with
  | case1 remaining chosen cost k hfull =>
    intro l q hl
    rw [oc_dfs_full_none n rand remaining chosen cost k hfull] at hl
    simp only [Option.some.injEq, Prod.mk.injEq] at hl
    obtain ⟨rfl, _⟩ := hl
    refine ⟨?_, hfull⟩
    exact ((List.sublist_append_left chosen remaining).subperm).trans hpairs.subperm
  | case2 remaining chosen cost k hfull bl bc hlt =>
    intro l q hl
    rw [oc_dfs_full_better n rand remaining chosen bl cost bc k hfull hlt] at hl
    simp only [Option.some.injEq, Prod.mk.injEq] at hl
    obtain ⟨rfl, _⟩ := hl
    refine ⟨?_, hfull⟩
    exact ((List.sublist_append_left chosen remaining).subperm).trans hpairs.subperm
  | case3 remaining chosen cost k hfull bl bc hlt =>
    intro l q hl
    rw [oc_dfs_full_keep n rand remaining chosen bl cost bc k hfull hlt] at hl
    simp only [Option.some.injEq, Prod.mk.injEq] at hl
    obtain ⟨rfl, _⟩ := hl
    exact hbest bl bc rfl
  | case4 chosen cost best k hfull =>
    intro l q hl
    rw [oc_dfs_nil n rand chosen cost best k hfull] at hl
    exact hbest l q hl
  | case5 chosen cost best k hfull first rest ih =>
    intro l q hl
    rw [oc_dfs_cons n rand first rest chosen cost best k hfull] at hl
    refine ih ?_ ?_ l q hl
    · simpa [ocCallPairs] using hpairs
    · exact hbest
  | case6 first pre chosen cost best k =>
    intro l q hl
    rw [oc_loop_nil] at hl
    exact hbest l q hl
  | case7 first pre second post chosen cost best k c skip hskip ih =>
    rcases best with _ | ⟨bl, bc⟩
    · exact absurd (hskip : false = true) (by simp)
    · intro l q hl
      have hle : bc ≤ cost + courtCost first second (rand k) := by
        have h2 : decide (bc ≤ cost + courtCost first second (rand k)) = true := hskip
        simpa using h2
      rw [oc_loop_skip n rand first second pre post chosen bl cost bc k hle] at hl
      refine ih ?_ ?_ l q hl
      · simp only [ocCallPairs] at hpairs ⊢
        simpa [List.append_assoc] using hpairs
      · exact hbest
  | case8 first pre second post chosen cost best k c skip hskip best2 k2 hdfs ihdfs ihloop =>
    have hpairsdfs : (ocCallPairs (OcCall.dfs (pre ++ post) (chosen ++ [first, second])
        (cost + courtCost first second (rand k)) best (k + 1))).Perm pairs := by
      simp only [ocCallPairs] at hpairs ⊢
      exact (ocPairs_shift first second pre post chosen).trans hpairs
    have hbest2 : ∀ l q, best2 = some (l, q) → l.Subperm pairs ∧ l.length = n * 2 := by
      intro l q hl2
      refine ihdfs hpairsdfs hbest l q ?_
      rw [hdfs]
      exact hl2
    have hpairsloop : (ocCallPairs (OcCall.loop first (pre ++ [second]) post chosen
        cost best2 k2)).Perm pairs := by
      simp only [ocCallPairs] at hpairs ⊢
      simpa [List.append_assoc] using hpairs
    rcases best with _ | ⟨bl, bc⟩
    · intro l q hl
      rw [oc_loop_none n rand first second pre post chosen cost k, hdfs] at hl
      exact ihloop hpairsloop hbest2 l q hl
    · intro l q hl
      have hgt : ¬ bc ≤ cost + courtCost first second (rand k) := by
        have h2 : ¬ decide (bc ≤ cost + courtCost first second (rand k)) = true := hskip
        simpa using h2
      rw [oc_loop_go n rand first second pre post chosen bl cost bc k hgt, hdfs] at hl
      exact ihloop hpairsloop hbest2 l q hl

/-- Precondition under which the optimizer search is guaranteed to record
some arrangement. -/
def OcCond (n : ℕ) : OcCall → Prop
  | .dfs remaining chosen _ _ _ =>
      chosen.length % 2 = 0 ∧ chosen.length + remaining.length = n * 2
  | .loop _ pre todo chosen _ best _ =>
      chosen.length % 2 = 0 ∧
        chosen.length + (pre.length + todo.length + 1) = n * 2 ∧
        (best.isSome = true ∨ todo ≠ [])

/-- The search always ends with a recorded best when the pair count is
exactly `numCourts * 2`. -/
theorem ocAux_total (n : ℕ) (rand : ℕ → ℚ) (c : OcCall) (hc : OcCond n c) :
    ((optimizeCourtsAux n rand c).1).isSome = true := by
  induction c using optimizeCourtsAux.induct n rand with
  | case1 remaining chosen cost k hfull =>
    rw [oc_dfs_full_none n rand remaining chosen cost k hfull]
    rfl
  | case2 remaining chosen cost k hfull bl bc hlt =>
    rw [oc_dfs_full_better n rand remaining chosen bl cost bc k hfull hlt]
    rfl
  | case3 remaining chosen cost k hfull bl bc hlt =>
    rw [oc_dfs_full_keep n rand remaining chosen bl cost bc k hfull hlt]
    rfl
  | case4 chosen cost best k hfull =>
    obtain ⟨hev, hsum⟩ := hc
    simp only [List.length_nil] at hsum
    exact absurd (by omega : chosen.length = n * 2) hfull
  | case5 chosen cost best k hfull first rest ih =>
    obtain ⟨hev, hsum⟩ := hc
    rw [oc_dfs_cons n rand first rest chosen cost best k hfull]
    refine ih ⟨hev, ?_, ?_⟩
    · simp only [List.length_nil, List.length_cons] at hsum ⊢
      omega
    · right
      intro hnil
      subst hnil
      simp only [List.length_cons, List.length_nil] at hsum
      omega
  | case6 first pre chosen cost best k =>
    obtain ⟨hev, hsum, hdisj⟩ := hc
    rw [oc_loop_nil]
    rcases hdisj with hsome | hne
    · exact hsome
    · exact absurd rfl hne
  | case7 first pre second post chosen cost best k c skip hskip ih =>
    obtain ⟨hev, hsum, hdisj⟩ := hc
    rcases best with _ | ⟨bl, bc⟩
    · exact absurd (hskip : false = true) (by simp)
    · have hle : bc ≤ cost + courtCost first second (rand k) := by
        have h2 : decide (bc ≤ cost + courtCost first second (rand k)) = true := hskip
        simpa using h2
      rw [oc_loop_skip n rand first second pre post chosen bl cost bc k hle]
      refine ih ⟨hev, ?_, Or.inl rfl⟩
      simp only [List.length_append, List.length_cons, List.length_nil] at hsum ⊢
      omega
  | case8 first pre second post chosen cost best k c skip hskip best2 k2 hdfs ihdfs ihloop =>
    obtain ⟨hev, hsum, hdisj⟩ := hc
    have hconddfs : OcCond n (OcCall.dfs (pre ++ post) (chosen ++ [first, second])
        (cost + courtCost first second (rand k)) best (k + 1)) := by
      refine ⟨?_, ?_⟩
      · simp only [List.length_append, List.length_cons, List.length_nil]
        omega
      · simp only [List.length_append, List.length_cons, List.length_nil] at hsum ⊢
        omega
    have hb2 : best2.isSome = true := by
      have := ihdfs hconddfs
      rw [hdfs] at this
      exact this
    have hcondloop : OcCond n (OcCall.loop first (pre ++ [second]) post chosen
        cost best2 k2) := by
      refine ⟨hev, ?_, Or.inl hb2⟩
      simp only [List.length_append, List.length_cons, List.length_nil] at hsum ⊢
      omega
    rcases best with _ | ⟨bl, bc⟩
    · rw [oc_loop_none n rand first second pre post chosen cost k, hdfs]
      exact ihloop hcondloop
    · have hgt : ¬ bc ≤ cost + courtCost first second (rand k) := by
        have h2 : ¬ decide (bc ≤ cost + courtCost first second (rand k)) = true := hskip
        simpa using h2
      rw [oc_loop_go n rand first second pre post chosen bl cost bc k hgt, hdfs]
      exact ihloop hcondloop

/-- The court optimizer never returns `null` on a well-sized input, and its
result is a permutation of the input pairs. -/
theorem optimizeCourts_spec (pairs : List Pairing) (n : ℕ) (rand : ℕ → ℚ)
    (hlen : pairs.length = n * 2) :
    ∃ res : List Pairing, optimizeCourts pairs n rand = some res ∧ res.Perm pairs := by
  have htot : ((optimizeCourtsAux n rand (.dfs pairs [] 0 none 0)).1).isSome = true := by
    refine ocAux_total n rand _ ⟨by simp, ?_⟩
    simpa using hlen
  rcases hres : (optimizeCourtsAux n rand (.dfs pairs [] 0 none 0)).1 with _ | ⟨l, q⟩
  · rw [hres] at htot
    cases htot
  · have hperm : l.Perm pairs := by
      have hsub := ocAux_best_subperm n rand pairs (.dfs pairs [] 0 none 0)
        (by simp [ocCallPairs]) (by intro l q h; cases h) l q hres
      exact hsub.1.perm_of_length_le (by omega)
    refine ⟨l, ?_, hperm⟩
    unfold optimizeCourts
    rw [hres]
    rfl

/-! ### Building matches from ordered pairs -/

theorem buildMatchesFromPairs_stop (ps : List Pairing) (court nC : ℕ)
    (h : nC < court) : buildMatchesFromPairs ps court nC = [] := by
  match ps with
  | [] => rfl
  | [t] => rfl
  | t1 :: t2 :: r =>
    simp only [buildMatchesFromPairs]
    rw [if_neg (by omega)]

/-- Structure of the match-building loop: starting at court `court` with `kk`
courts still to fill and at least `2 * kk` pairs available, it produces
exactly `kk` matches, on courts `court, court+1, ...`, each 2v2, consuming
exactly the first `2 * kk` pairs. -/
theorem buildMatchesFromPairs_spec :
    ∀ (kk : ℕ) (ps : List Pairing) (court nC : ℕ),
    2 * kk ≤ ps.length → court + kk = nC + 1 →
    (buildMatchesFromPairs ps court nC).length = kk ∧
    (buildMatchesFromPairs ps court nC).map Match.courtNumber = List.range' court kk ∧
    (∀ m ∈ buildMatchesFromPairs ps court nC, m.side1.length = 2 ∧ m.side2.length = 2) ∧
    ((buildMatchesFromPairs ps court nC).flatMap fun m => m.side1 ++ m.side2)
      = pairingPlayers (ps.take (2 * kk)) := by
  intro kk
  induction kk with
  | zero =>
    intro ps court nC _ hcourt
    have hstop : buildMatchesFromPairs ps court nC = [] :=
      buildMatchesFromPairs_stop ps court nC (by omega)
    rw [hstop]
    refine ⟨rfl, by simp, by simp, by simp [pairingPlayers]⟩
  | succ kk ih =>
    intro ps court nC hps hcourt
    match ps, hps with
    | t1 :: t2 :: r, hps =>
      have hcourtle : court ≤ nC := by omega
      have hr : 2 * kk ≤ r.length := by
        simp only [List.length_cons] at hps
        omega
      obtain ⟨ihlen, ihmap, ihsides, ihflat⟩ := ih r (court + 1) nC hr (by omega)
      simp only [buildMatchesFromPairs, if_pos hcourtle]
      refine ⟨?_, ?_, ?_, ?_⟩
      · simp [ihlen]
      · simp only [List.map_cons, ihmap]
        rw [List.range'_succ]
      · intro m hm
        rcases List.mem_cons.mp hm with rfl | hm2
        · exact ⟨rfl, rfl⟩
        · exact ihsides m hm2
      · simp only [List.flatMap_cons, ihflat]
        have htake : (t1 :: t2 :: r).take (2 * (kk + 1))
            = t1 :: t2 :: r.take (2 * kk) := by
          have : 2 * (kk + 1) = 2 * kk + 1 + 1 := by ring
          rw [this]
          simp [List.take_succ_cons]
        rw [htake, pairingPlayers_cons, pairingPlayers_cons]
        simp

/-! ### Unfolding generateRoundMatchesAvoidingPartners -/

theorem generateRound_insufficient (players : List Player) (numCourts : ℕ)
    (past : List String) (sr : ℕ → ℚ) (ro : ℕ → List ℕ → List ℕ) (cr : ℕ → ℚ)
    (hlen : players.length < numCourts * 4) :
    generateRoundMatchesAvoidingPartners players numCourts past sr ro cr
      = .error "Not enough players for all courts" := by
  simp only [generateRoundMatchesAvoidingPartners, if_pos hlen]

theorem generateRound_eq_strict (players : List Player) (numCourts : ℕ)
    (past : List String) (sr : ℕ → ℚ) (ro : ℕ → List ℕ → List ℕ) (cr : ℕ → ℚ)
    (P : List Pairing) (k : ℕ)
    (hlen : ¬ players.length < numCourts * 4)
    (hstrict : buildPairs (fisherYates sr players) past false ro 0 = (some P, k)) :
    generateRoundMatchesAvoidingPartners players numCourts past sr ro cr =
      .ok { «matches» := buildMatchesFromPairs
              ((optimizeCourts P numCourts cr).getD P) 1 numCourts
            usedPairs := P
            fallback := false } := by
  simp only [generateRoundMatchesAvoidingPartners, if_neg hlen]
  rw [hstrict]

theorem generateRound_eq_relaxed (players : List Player) (numCourts : ℕ)
    (past : List String) (sr : ℕ → ℚ) (ro : ℕ → List ℕ → List ℕ) (cr : ℕ → ℚ)
    (P : List Pairing) (k1 k2 : ℕ)
    (hlen : ¬ players.length < numCourts * 4)
    (hstrict : buildPairs (fisherYates sr players) past false ro 0 = (none, k1))
    (hrel : buildPairs (fisherYates sr players) past true ro k1 = (some P, k2)) :
    generateRoundMatchesAvoidingPartners players numCourts past sr ro cr =
      .ok { «matches» := buildMatchesFromPairs
              ((optimizeCourts P numCourts cr).getD P) 1 numCourts
            usedPairs := P
            fallback := true } := by
  simp only [generateRoundMatchesAvoidingPartners, if_neg hlen, hstrict]
  rw [hrel]

theorem generateRound_eq_totalFallback (players : List Player) (numCourts : ℕ)
    (past : List String) (sr : ℕ → ℚ) (ro : ℕ → List ℕ → List ℕ) (cr : ℕ → ℚ)
    (k1 k2 : ℕ)
    (hlen : ¬ players.length < numCourts * 4)
    (hstrict : buildPairs (fisherYates sr players) past false ro 0 = (none, k1))
    (hrel : buildPairs (fisherYates sr players) past true ro k1 = (none, k2)) :
    generateRoundMatchesAvoidingPartners players numCourts past sr ro cr =
      .ok { «matches» := fallbackMatches (fisherYates sr players) 1 numCourts
            usedPairs := []
            fallback := true } := by
  simp only [generateRoundMatchesAvoidingPartners, if_neg hlen, hstrict]
  rw [hrel]

/-! ### Entry-point wrappers -/

theorem buildPairs_complete (shuffled : List Player) (past : List String)
    (ro : ℕ → List ℕ → List ℕ) (hre : ∀ k l, (ro k l).Perm l)
    (hav : AvoidingPairing past shuffled) (k : ℕ) :
    ∃ ps k2, buildPairs shuffled past false ro k = (some ps, k2) :=
  buildPairsAux_complete past ro hre shuffled.length shuffled le_rfl hav k

theorem buildPairs_relaxed_complete (shuffled : List Player) (past : List String)
    (ro : ℕ → List ℕ → List ℕ) (hre : ∀ k l, (ro k l).Perm l)
    (heven : shuffled.length % 2 = 0) (k : ℕ) :
    ∃ ps k2, buildPairs shuffled past true ro k = (some ps, k2) :=
  buildPairsAux_relaxed_complete past ro hre shuffled.length shuffled le_rfl heven k

theorem buildPairs_odd_fails (shuffled : List Player) (past : List String)
    (ar : Bool) (ro : ℕ → List ℕ → List ℕ)
    (hodd : shuffled.length % 2 = 1) (k : ℕ) :
    (buildPairs shuffled past ar ro k).1 = none :=
  buildPairsAux_odd_fails past ar ro shuffled.length shuffled le_rfl hodd k

theorem optimizeCourts_some_subperm (pairs : List Pairing) (n : ℕ) (rand : ℕ → ℚ)
    (res : List Pairing) (h : optimizeCourts pairs n rand = some res) :
    res.Subperm pairs ∧ res.length = n * 2 := by
  unfold optimizeCourts at h
  rcases hres : (optimizeCourtsAux n rand (.dfs pairs [] 0 none 0)).1 with _ | ⟨l, q⟩
  · rw [hres] at h
    cases h
  · rw [hres] at h
    simp at h
    subst h
    refine ocAux_best_subperm n rand pairs (.dfs pairs [] 0 none 0) ?_ ?_ _ q hres
    · simp [ocCallPairs]
    · intro l q h
      cases h

theorem optimizeCourts_some_perm (pairs : List Pairing) (n : ℕ) (rand : ℕ → ℚ)
    (res : List Pairing) (hlen : pairs.length = n * 2)
    (h : optimizeCourts pairs n rand = some res) : res.Perm pairs := by
  obtain ⟨hsub, hreslen⟩ := optimizeCourts_some_subperm pairs n rand res h
  exact hsub.perm_of_length_le (by omega)

/-- Validity of the matches built on the success path of round generation,
for a full-sized roster. -/
theorem successMatches_valid (players : List Player) (numCourts : ℕ) (cr : ℕ → ℚ)
    (shuffled : List Player) (P : List Pairing)
    (hshuf : shuffled.Perm players)
    (hP : (pairingPlayers P).Perm shuffled)
    (hlen : players.length = numCourts * 4) :
    (buildMatchesFromPairs ((optimizeCourts P numCourts cr).getD P) 1 numCourts).length
        = numCourts ∧
    (buildMatchesFromPairs ((optimizeCourts P numCourts cr).getD P) 1 numCourts).map
        Match.courtNumber = List.range' 1 numCourts ∧
    (∀ m ∈ buildMatchesFromPairs ((optimizeCourts P numCourts cr).getD P) 1 numCourts,
        m.side1.length = 2 ∧ m.side2.length = 2) ∧
    ((buildMatchesFromPairs ((optimizeCourts P numCourts cr).getD P) 1 numCourts).flatMap
        matchIds).Perm (players.map Player.id) := by
  have hPp : (pairingPlayers P).Perm players := hP.trans hshuf
  have hPlen : P.length = numCourts * 2 := by
    have h1 := hPp.length_eq
    rw [pairingPlayers_length] at h1
    omega
  have hordperm : ((optimizeCourts P numCourts cr).getD P).Perm P := by
    rcases hopt : optimizeCourts P numCourts cr with _ | q
    · exact List.Perm.refl P
    · exact optimizeCourts_some_perm P numCourts cr q hPlen hopt
  have hordlen : ((optimizeCourts P numCourts cr).getD P).length = numCourts * 2 := by
    rw [hordperm.length_eq, hPlen]
  obtain ⟨h1, h2, h3, h4⟩ := buildMatchesFromPairs_spec numCourts
    ((optimizeCourts P numCourts cr).getD P) 1 numCourts (by omega) (by omega)
  refine ⟨h1, h2, h3, ?_⟩
  have htake : ((optimizeCourts P numCourts cr).getD P).take (2 * numCourts)
      = (optimizeCourts P numCourts cr).getD P := by
    apply List.take_of_length_le
    omega
  rw [htake] at h4
  have hids : (buildMatchesFromPairs ((optimizeCourts P numCourts cr).getD P)
        1 numCourts).flatMap matchIds
      = ((buildMatchesFromPairs ((optimizeCourts P numCourts cr).getD P)
          1 numCourts).flatMap fun m => m.side1 ++ m.side2).map Player.id := by
    rw [List.map_flatMap]
    rfl
  rw [hids, h4]
  exact ((pairingPlayers_perm hordperm).trans hPp).map Player.id

/-! ### Concrete oracles and players for the witnesses -/

/-- A random stream that always returns 0 (a legal `Math.random` output). -/
def zeroRand : ℕ → ℚ := fun _ => 0

/-- A candidate-sort oracle that keeps the order unchanged (a legal outcome
of `Array.prototype.sort`). -/
def idReorder : ℕ → List ℕ → List ℕ := fun _ l => l

theorem idReorder_perm : ∀ k l, (idReorder k l).Perm l := fun _ _ => List.Perm.refl _

/-- A concrete roster player for witnesses. -/
def wPlayer (i : ℕ) : Player := ⟨i, "P" ++ toString i, 0, 0, 0⟩

/-! ### Claims -/

/-- C1: for every roster of distinct-id players with `players.length`
exactly `numCourts * 4` (`numCourts ≥ 1`), every history and every behavior
of the random source (shuffle stream, candidate-sort oracle returning
permutations, cost-noise stream), `generateRoundMatchesAvoidingPartners`
returns exactly `numCourts` matches with court numbers `1..numCourts`, two
players on each side, and every input player id appearing exactly once
across the round (the multiset of ids in the matches is exactly the roster's
ids, which are distinct). -/
theorem generateRound_fullRoster_valid (players : List Player) (numCourts : ℕ)
    (past : List String) (sr : ℕ → ℚ) (ro : ℕ → List ℕ → List ℕ) (cr : ℕ → ℚ)
    (hre : ∀ k l, (ro k l).Perm l)
    (hids : (players.map Player.id).Nodup)
    (_hn : 1 ≤ numCourts)
    (hlen : players.length = numCourts * 4) :
    ∃ r, generateRoundMatchesAvoidingPartners players numCourts past sr ro cr = .ok r ∧
      r.«matches».length = numCourts ∧
      r.«matches».map Match.courtNumber = List.range' 1 numCourts ∧
      (∀ m ∈ r.«matches», m.side1.length = 2 ∧ m.side2.length = 2) ∧
      (r.«matches».flatMap matchIds).Perm (players.map Player.id) ∧
      (r.«matches».flatMap matchIds).Nodup := by
  have hnotlt : ¬ players.length < numCourts * 4 := by omega
  have hshuf := fisherYates_perm sr players
  rcases hstrict : buildPairs (fisherYates sr players) past false ro 0 with ⟨r1, k1⟩
  rcases r1 with _ | P
  · have heven : (fisherYates sr players).length % 2 = 0 := by
      rw [hshuf.length_eq, hlen]
      omega
    obtain ⟨P, k2, hrel⟩ :=
      buildPairs_relaxed_complete (fisherYates sr players) past ro hre heven k1
    rw [generateRound_eq_relaxed players numCourts past sr ro cr P k1 k2 hnotlt hstrict hrel]
    have hP := (buildPairs_sound _ _ _ _ _ _ _ hrel).1
    obtain ⟨h1, h2, h3, h4⟩ :=
      successMatches_valid players numCourts cr (fisherYates sr players) P hshuf hP hlen
    exact ⟨_, rfl, h1, h2, h3, h4, h4.nodup_iff.mpr hids⟩
  · rw [generateRound_eq_strict players numCourts past sr ro cr P k1 hnotlt hstrict]
    have hP := (buildPairs_sound _ _ _ _ _ _ _ hstrict).1
    obtain ⟨h1, h2, h3, h4⟩ :=
      successMatches_valid players numCourts cr (fisherYates sr players) P hshuf hP hlen
    exact ⟨_, rfl, h1, h2, h3, h4, h4.nodup_iff.mpr hids⟩

/-- Witness for C1 at a concrete roster of four distinct players on one
court, with concrete oracles. -/
theorem generateRound_fullRoster_valid_witness :
    (∀ k l, (idReorder k l).Perm l) ∧
    (([wPlayer 1, wPlayer 2, wPlayer 3, wPlayer 4].map Player.id).Nodup) ∧
    1 ≤ 1 ∧
    [wPlayer 1, wPlayer 2, wPlayer 3, wPlayer 4].length = 1 * 4 ∧
    (∃ r, generateRoundMatchesAvoidingPartners
        [wPlayer 1, wPlayer 2, wPlayer 3, wPlayer 4] 1 [] zeroRand idReorder zeroRand
          = .ok r ∧
      r.«matches».length = 1 ∧
      r.«matches».map Match.courtNumber = List.range' 1 1 ∧
      (∀ m ∈ r.«matches», m.side1.length = 2 ∧ m.side2.length = 2) ∧
      (r.«matches».flatMap matchIds).Perm
        ([wPlayer 1, wPlayer 2, wPlayer 3, wPlayer 4].map Player.id) ∧
      (r.«matches».flatMap matchIds).Nodup) :=
  ⟨idReorder_perm, by decide, by decide, by decide,
    generateRound_fullRoster_valid [wPlayer 1, wPlayer 2, wPlayer 3, wPlayer 4] 1 []
      zeroRand idReorder zeroRand idReorder_perm (by decide) (by decide) (by decide)⟩

/-- C5: round generation fails with the insufficient-players error exactly
on rosters smaller than `numCourts * 4`; on all other rosters it returns a
result (this error — or any error — is never raised). -/
theorem generateRound_insufficient_iff (players : List Player) (numCourts : ℕ)
    (past : List String) (sr : ℕ → ℚ) (ro : ℕ → List ℕ → List ℕ) (cr : ℕ → ℚ) :
    (players.length < numCourts * 4 →
      generateRoundMatchesAvoidingPartners players numCourts past sr ro cr
        = .error "Not enough players for all courts") ∧
    (numCourts * 4 ≤ players.length →
      ∃ r, generateRoundMatchesAvoidingPartners players numCourts past sr ro cr
        = .ok r) := by
  constructor
  · intro h
    exact generateRound_insufficient players numCourts past sr ro cr h
  · intro h
    have hnotlt : ¬ players.length < numCourts * 4 := by omega
    rcases hstrict : buildPairs (fisherYates sr players) past false ro 0 with ⟨r1, k1⟩
    rcases r1 with _ | P
    · rcases hrel : buildPairs (fisherYates sr players) past true ro k1 with ⟨r2, k2⟩
      rcases r2 with _ | P
      · exact ⟨_, generateRound_eq_totalFallback players numCourts past sr ro cr
          k1 k2 hnotlt hstrict hrel⟩
      · exact ⟨_, generateRound_eq_relaxed players numCourts past sr ro cr
          P k1 k2 hnotlt hstrict hrel⟩
    · exact ⟨_, generateRound_eq_strict players numCourts past sr ro cr
        P k1 hnotlt hstrict⟩

/-- Witness for C5: a 3-player roster on one court errors; a 4-player roster
on one court returns a round. -/
theorem generateRound_insufficient_iff_witness :
    ([wPlayer 1, wPlayer 2, wPlayer 3].length < 1 * 4 ∧
      generateRoundMatchesAvoidingPartners [wPlayer 1, wPlayer 2, wPlayer 3] 1 []
        zeroRand idReorder zeroRand = .error "Not enough players for all courts") ∧
    (1 * 4 ≤ [wPlayer 1, wPlayer 2, wPlayer 3, wPlayer 4].length ∧
      ∃ r, generateRoundMatchesAvoidingPartners
        [wPlayer 1, wPlayer 2, wPlayer 3, wPlayer 4] 1 [] zeroRand idReorder zeroRand
          = .ok r) :=
  ⟨⟨by decide,
    (generateRound_insufficient_iff [wPlayer 1, wPlayer 2, wPlayer 3] 1 []
      zeroRand idReorder zeroRand).1 (by decide)⟩,
   ⟨by decide,
    (generateRound_insufficient_iff [wPlayer 1, wPlayer 2, wPlayer 3, wPlayer 4] 1 []
      zeroRand idReorder zeroRand).2 (by decide)⟩⟩

/-- C8: on exactly `2 * numCourts` input pairs (`numCourts ≥ 1`) and for
every noise stream, `optimizeCourts` returns a non-null result which is a
permutation of the input pairs of length `2 * numCourts` (so the caller's
fallback to the unoptimized order is never taken for well-sized input). -/
theorem optimizeCourts_wellSized (pairs : List Pairing) (numCourts : ℕ)
    (rand : ℕ → ℚ) (_hn : 1 ≤ numCourts) (hlen : pairs.length = 2 * numCourts) :
    ∃ res, optimizeCourts pairs numCourts rand = some res ∧ res.Perm pairs ∧
      res.length = 2 * numCourts := by
  obtain ⟨res, hres, hperm⟩ := optimizeCourts_spec pairs numCourts rand (by omega)
  exact ⟨res, hres, hperm, by rw [hperm.length_eq, hlen]⟩

/-- Witness for C8 at two concrete pairs on one court. -/
theorem optimizeCourts_wellSized_witness :
    1 ≤ 1 ∧
    [Pairing.mk (wPlayer 1) (wPlayer 2), Pairing.mk (wPlayer 3) (wPlayer 4)].length
      = 2 * 1 ∧
    ∃ res, optimizeCourts
        [Pairing.mk (wPlayer 1) (wPlayer 2), Pairing.mk (wPlayer 3) (wPlayer 4)] 1
        zeroRand = some res ∧
      res.Perm [Pairing.mk (wPlayer 1) (wPlayer 2), Pairing.mk (wPlayer 3) (wPlayer 4)] ∧
      res.length = 2 * 1 :=
  ⟨by decide, by decide,
    optimizeCourts_wellSized
      [Pairing.mk (wPlayer 1) (wPlayer 2), Pairing.mk (wPlayer 3) (wPlayer 4)] 1
      zeroRand (by decide) (by decide)⟩

theorem pairingPlayers_sublist {q P : List Pairing} (h : q.Sublist P) :
    (pairingPlayers q).Sublist (pairingPlayers P) := by
  induction h with
  | slnil => exact List.Sublist.refl _
  | cons pr h ih =>
    rw [pairingPlayers_cons]
    refine ih.trans ?_
    exact (List.sublist_cons_self _ _).trans (List.sublist_cons_self _ _)
  | cons₂ pr h ih =>
    rw [pairingPlayers_cons, pairingPlayers_cons]
    exact (ih.cons₂ _).cons₂ _

theorem pairingPlayers_subperm {q P : List Pairing} (h : q.Subperm P) :
    (pairingPlayers q).Subperm (pairingPlayers P) := by
  obtain ⟨l, hlq, hlP⟩ := h
  exact ⟨pairingPlayers l, pairingPlayers_perm hlq, pairingPlayers_sublist hlP⟩

theorem avoidingPairing_of_perm {past : List String} {l l2 : List Player}
    (h : l.Perm l2) : AvoidingPairing past l → AvoidingPairing past l2 :=
  fun ⟨ps, hp, ha⟩ => ⟨ps, hp.trans h, ha⟩

/-- Validity of the matches built on the success path, for any roster of
size at least `numCourts * 4` (the general form: the matches consume the
first `2 * numCourts` pairs of the optimizer's arrangement, which is a
sub-permutation of the built pairs). -/
theorem successMatches_valid_ge (players : List Player) (numCourts : ℕ)
    (cr : ℕ → ℚ) (shuffled : List Player) (P : List Pairing)
    (hshuf : shuffled.Perm players)
    (hP : (pairingPlayers P).Perm shuffled)
    (hlen : numCourts * 4 ≤ players.length) :
    (buildMatchesFromPairs ((optimizeCourts P numCourts cr).getD P) 1 numCourts).length
        = numCourts ∧
    (buildMatchesFromPairs ((optimizeCourts P numCourts cr).getD P) 1 numCourts).map
        Match.courtNumber = List.range' 1 numCourts ∧
    (∀ m ∈ buildMatchesFromPairs ((optimizeCourts P numCourts cr).getD P) 1 numCourts,
        m.side1.length = 2 ∧ m.side2.length = 2) ∧
    ((buildMatchesFromPairs ((optimizeCourts P numCourts cr).getD P) 1 numCourts).flatMap
        fun m => m.side1 ++ m.side2)
      = pairingPlayers (((optimizeCourts P numCourts cr).getD P).take (2 * numCourts)) ∧
    ((optimizeCourts P numCourts cr).getD P).Subperm P ∧
    2 * numCourts ≤ ((optimizeCourts P numCourts cr).getD P).length := by
  have hPp : (pairingPlayers P).Perm players := hP.trans hshuf
  have hPlen : 2 * P.length = players.length := by
    have h1 := hPp.length_eq
    rw [pairingPlayers_length] at h1
    omega
  have hordfacts : ((optimizeCourts P numCourts cr).getD P).Subperm P ∧
      2 * numCourts ≤ ((optimizeCourts P numCourts cr).getD P).length := by
    rcases hopt : optimizeCourts P numCourts cr with _ | q
    · refine ⟨(List.Perm.refl P).subperm, ?_⟩
      show 2 * numCourts ≤ P.length
      omega
    · obtain ⟨hsub, hqlen⟩ := optimizeCourts_some_subperm P numCourts cr q hopt
      refine ⟨hsub, ?_⟩
      show 2 * numCourts ≤ q.length
      omega
  obtain ⟨h1, h2, h3, h4⟩ := buildMatchesFromPairs_spec numCourts
    ((optimizeCourts P numCourts cr).getD P) 1 numCourts (by omega) (by omega)
  exact ⟨h1, h2, h3, h4, hordfacts.1, hordfacts.2⟩

/-- C3: for every even-length roster meeting the size precondition, every
history, and every behavior of the random source: if some perfect pairing of
the players avoids the history, the round generator succeeds strictly
(`fallback = false`) and none of the keys of `usedPairs` is in the history;
if no such pairing exists, it returns `fallback = true` and still a
complete, valid round (`numCourts` full 2v2 matches on courts
`1..numCourts`, all of whose players come from the roster).  In particular
the candidate-ordering heuristic and the shuffle never change whether the
strict search succeeds. -/
theorem generateRound_strict_completeness (players : List Player) (numCourts : ℕ)
    (past : List String) (sr : ℕ → ℚ) (ro : ℕ → List ℕ → List ℕ) (cr : ℕ → ℚ)
    (hre : ∀ k l, (ro k l).Perm l)
    (heven : players.length % 2 = 0)
    (hlen : numCourts * 4 ≤ players.length) :
    (AvoidingPairing past players →
      ∃ r, generateRoundMatchesAvoidingPartners players numCourts past sr ro cr
          = .ok r ∧
        r.fallback = false ∧
        (∀ pr ∈ r.usedPairs, past.contains (partnerKey pr.p1 pr.p2) = false)) ∧
    (¬ AvoidingPairing past players →
      ∃ r, generateRoundMatchesAvoidingPartners players numCourts past sr ro cr
          = .ok r ∧
        r.fallback = true ∧
        r.«matches».length = numCourts ∧
        r.«matches».map Match.courtNumber = List.range' 1 numCourts ∧
        (∀ m ∈ r.«matches», m.side1.length = 2 ∧ m.side2.length = 2) ∧
        (r.«matches».flatMap fun m => m.side1 ++ m.side2).Subperm players) := by
  have hnotlt : ¬ players.length < numCourts * 4 := by omega
  have hshuf := fisherYates_perm sr players
  constructor
  · intro hav
    have hav2 : AvoidingPairing past (fisherYates sr players) :=
      avoidingPairing_of_perm hshuf.symm hav
    obtain ⟨P, k2, hstrict⟩ :=
      buildPairs_complete (fisherYates sr players) past ro hre hav2 0
    refine ⟨_, generateRound_eq_strict players numCourts past sr ro cr P k2
      hnotlt hstrict, rfl, ?_⟩
    exact (buildPairs_sound _ _ _ _ _ _ _ hstrict).2 rfl
  · intro hav
    rcases hstrict : buildPairs (fisherYates sr players) past false ro 0 with ⟨r1, k1⟩
    rcases r1 with _ | P
    · have hevensh : (fisherYates sr players).length % 2 = 0 := by
        rw [hshuf.length_eq]
        exact heven
      obtain ⟨P, k2, hrel⟩ :=
        buildPairs_relaxed_complete (fisherYates sr players) past ro hre hevensh k1
      refine ⟨_, generateRound_eq_relaxed players numCourts past sr ro cr P k1 k2
        hnotlt hstrict hrel, rfl, ?_⟩
      have hP := (buildPairs_sound _ _ _ _ _ _ _ hrel).1
      obtain ⟨h1, h2, h3, h4, h5, h6⟩ :=
        successMatches_valid_ge players numCourts cr (fisherYates sr players) P
          hshuf hP hlen
      refine ⟨h1, h2, h3, ?_⟩
      rw [h4]
      have hsub1 : (((optimizeCourts P numCourts cr).getD P).take
          (2 * numCourts)).Sublist ((optimizeCourts P numCourts cr).getD P) :=
        List.take_sublist _ _
      refine List.Subperm.trans ?_ ((hP.trans hshuf).subperm)
      exact ((pairingPlayers_sublist hsub1).subperm).trans
        (pairingPlayers_subperm h5)
    · exfalso
      obtain ⟨hperm, havoid⟩ := buildPairs_sound _ _ _ _ _ _ _ hstrict
      exact hav (avoidingPairing_of_perm hshuf
        ⟨P, hperm, havoid rfl⟩)

/-- Witness for C3: four distinct fresh players on one court with an empty
history (a strict pairing exists), and the same roster with every pair
blocked (no strict pairing exists). -/
theorem wAvoiding : AvoidingPairing [] [wPlayer 1, wPlayer 2, wPlayer 3, wPlayer 4] :=
  ⟨[Pairing.mk (wPlayer 1) (wPlayer 2), Pairing.mk (wPlayer 3) (wPlayer 4)],
    by decide, fun pr _ => rfl⟩

theorem generateRound_strict_completeness_witness :
    (∀ k l, (idReorder k l).Perm l) ∧
    [wPlayer 1, wPlayer 2, wPlayer 3, wPlayer 4].length % 2 = 0 ∧
    1 * 4 ≤ [wPlayer 1, wPlayer 2, wPlayer 3, wPlayer 4].length ∧
    AvoidingPairing [] [wPlayer 1, wPlayer 2, wPlayer 3, wPlayer 4] ∧
    (∃ r, generateRoundMatchesAvoidingPartners
        [wPlayer 1, wPlayer 2, wPlayer 3, wPlayer 4] 1 [] zeroRand idReorder zeroRand
          = .ok r ∧
      r.fallback = false ∧
      (∀ pr ∈ r.usedPairs, List.contains [] (partnerKey pr.p1 pr.p2) = false)) :=
  ⟨idReorder_perm, by decide, by decide, wAvoiding,
    (generateRound_strict_completeness [wPlayer 1, wPlayer 2, wPlayer 3, wPlayer 4]
      1 [] zeroRand idReorder zeroRand idReorder_perm (by decide) (by decide)).1
      wAvoiding⟩

/-- C9 (amended): when the size precondition holds, the total-fallback branch
(`usedPairs = []` with `fallback = true`, history-agnostic consecutive
grouping) is taken exactly on odd rosters: an even roster always takes a
success branch, with `usedPairs` holding `players.length / 2` pairs (hence
non-empty whenever the roster is non-empty); an odd roster always fails both
`buildPairs` attempts and takes the total fallback. -/
theorem generateRound_totalFallback_iff_odd (players : List Player) (numCourts : ℕ)
    (past : List String) (sr : ℕ → ℚ) (ro : ℕ → List ℕ → List ℕ) (cr : ℕ → ℚ)
    (hre : ∀ k l, (ro k l).Perm l)
    (hlen : numCourts * 4 ≤ players.length) :
    (players.length % 2 = 0 →
      ∃ r, generateRoundMatchesAvoidingPartners players numCourts past sr ro cr
          = .ok r ∧
        2 * r.usedPairs.length = players.length ∧
        (players ≠ [] → r.usedPairs ≠ [])) ∧
    (players.length % 2 = 1 →
      ∃ r, generateRoundMatchesAvoidingPartners players numCourts past sr ro cr
          = .ok r ∧
        r.usedPairs = [] ∧ r.fallback = true) := by
  have hnotlt : ¬ players.length < numCourts * 4 := by omega
  have hshuf := fisherYates_perm sr players
  constructor
  · intro heven
    have hcount : ∀ P : List Pairing, (pairingPlayers P).Perm (fisherYates sr players) →
        2 * P.length = players.length ∧ (players ≠ [] → P ≠ []) := by
      intro P hP
      have h1 := (hP.trans hshuf).length_eq
      rw [pairingPlayers_length] at h1
      refine ⟨by omega, ?_⟩
      intro hne hPnil
      subst hPnil
      simp only [List.length_nil] at h1
      exact hne (List.length_eq_zero.mp (by omega))
    rcases hstrict : buildPairs (fisherYates sr players) past false ro 0 with ⟨r1, k1⟩
    rcases r1 with _ | P
    · have hevensh : (fisherYates sr players).length % 2 = 0 := by
        rw [hshuf.length_eq]
        exact heven
      obtain ⟨P, k2, hrel⟩ :=
        buildPairs_relaxed_complete (fisherYates sr players) past ro hre hevensh k1
      obtain ⟨hc1, hc2⟩ := hcount P (buildPairs_sound _ _ _ _ _ _ _ hrel).1
      exact ⟨_, generateRound_eq_relaxed players numCourts past sr ro cr P k1 k2
        hnotlt hstrict hrel, hc1, hc2⟩
    · obtain ⟨hc1, hc2⟩ := hcount P (buildPairs_sound _ _ _ _ _ _ _ hstrict).1
      exact ⟨_, generateRound_eq_strict players numCourts past sr ro cr P k1
        hnotlt hstrict, hc1, hc2⟩
  · intro hodd
    have hoddsh : (fisherYates sr players).length % 2 = 1 := by
      rw [hshuf.length_eq]
      exact hodd
    rcases hstrict : buildPairs (fisherYates sr players) past false ro 0 with ⟨r1, k1⟩
    have hr1 : r1 = none := by
      have := buildPairs_odd_fails (fisherYates sr players) past false ro hoddsh 0
      rw [hstrict] at this
      exact this
    subst hr1
    rcases hrel : buildPairs (fisherYates sr players) past true ro k1 with ⟨r2, k2⟩
    have hr2 : r2 = none := by
      have := buildPairs_odd_fails (fisherYates sr players) past true ro hoddsh k1
      rw [hrel] at this
      exact this
    subst hr2
    exact ⟨_, generateRound_eq_totalFallback players numCourts past sr ro cr k1 k2
      hnotlt hstrict hrel, rfl, rfl⟩

/-- Counterexample to C9 as frozen: on the empty (even-length) roster with
`numCourts = 0` — which satisfies the claim's precondition
`players.length ≥ numCourts * 4` — the strict search trivially succeeds and
the round is generated with `usedPairs = []`, contradicting the claim that
`usedPairs` is always non-empty for even rosters. -/
theorem generateRound_even_usedPairs_empty_counterexample :
    ([] : List Player).length % 2 = 0 ∧
    0 * 4 ≤ ([] : List Player).length ∧
    generateRoundMatchesAvoidingPartners [] 0 [] zeroRand idReorder zeroRand
      = .ok { «matches» := [], usedPairs := [], fallback := false } := by
  refine ⟨rfl, by omega, ?_⟩
  have hstrict : buildPairs (fisherYates zeroRand []) [] false idReorder 0
      = (some [], 0) := bp_node_nil [] false idReorder 0
  rw [generateRound_eq_strict [] 0 [] zeroRand idReorder zeroRand [] 0
    (by omega) hstrict]
  have hopt : optimizeCourts ([] : List Pairing) 0 zeroRand = some [] := by
    unfold optimizeCourts
    rw [oc_dfs_full_none 0 zeroRand [] [] 0 0 rfl]
    rfl
  rw [hopt]
  rfl

/-- Witness for the amended C9 at an odd roster (5 players, 1 court). -/
theorem generateRound_totalFallback_iff_odd_witness :
    (∀ k l, (idReorder k l).Perm l) ∧
    1 * 4 ≤ [wPlayer 1, wPlayer 2, wPlayer 3, wPlayer 4, wPlayer 5].length ∧
    [wPlayer 1, wPlayer 2, wPlayer 3, wPlayer 4, wPlayer 5].length % 2 = 1 ∧
    (∃ r, generateRoundMatchesAvoidingPartners
        [wPlayer 1, wPlayer 2, wPlayer 3, wPlayer 4, wPlayer 5] 1 [] zeroRand
          idReorder zeroRand = .ok r ∧
      r.usedPairs = [] ∧ r.fallback = true) :=
  ⟨idReorder_perm, by decide, by decide,
    (generateRound_totalFallback_iff_odd
      [wPlayer 1, wPlayer 2, wPlayer 3, wPlayer 4, wPlayer 5] 1 [] zeroRand
      idReorder zeroRand idReorder_perm (by decide)).2 (by decide)⟩

/-! ### Distinctness facts about pairings over distinct-id rosters -/

theorem pair_ids_distinct_of_nodup :
    ∀ {P : List Pairing}, ((pairingPlayers P).map Player.id).Nodup →
    ∀ pr ∈ P, pr.p1.id ≠ pr.p2.id := by
  intro P
  induction P with
  | nil => intro _ pr h; cases h
  | cons pr0 P ih =>
    intro hnodup pr hpr
    rw [pairingPlayers_cons] at hnodup
    simp only [List.map_cons] at hnodup
    have h1 := List.nodup_cons.mp hnodup
    have h2 := List.nodup_cons.mp h1.2
    rcases List.mem_cons.mp hpr with rfl | hpr2
    · intro heq
      exact h1.1 (by rw [heq]; exact List.mem_cons_self _ _)
    · exact ih h2.2 pr hpr2

theorem pairs_nodup_of_ids_nodup :
    ∀ {P : List Pairing}, ((pairingPlayers P).map Player.id).Nodup → P.Nodup := by
  intro P
  induction P with
  | nil => intro _; exact List.nodup_nil
  | cons pr0 P ih =>
    intro hnodup
    rw [pairingPlayers_cons] at hnodup
    simp only [List.map_cons] at hnodup
    have h1 := List.nodup_cons.mp hnodup
    have h2 := List.nodup_cons.mp h1.2
    refine List.nodup_cons.mpr ⟨?_, ih h2.2⟩
    intro hmem
    refine h1.1 ?_
    refine List.mem_cons.mpr (Or.inr ?_)
    refine List.mem_map.mpr ⟨pr0.p1, ?_, rfl⟩
    exact mem_pairingPlayers.mpr ⟨pr0, hmem, Or.inl rfl⟩

theorem pairs_share_id_eq {P : List Pairing}
    (hnodup : ((pairingPlayers P).map Player.id).Nodup) :
    ∀ pr ∈ P, ∀ pr2 ∈ P,
      (pr.p1.id = pr2.p1.id ∨ pr.p1.id = pr2.p2.id ∨
       pr.p2.id = pr2.p1.id ∨ pr.p2.id = pr2.p2.id) → pr = pr2 := by
  induction P with
  | nil => intro pr h; cases h
  | cons pr0 P ih =>
    intro pr hpr pr2 hpr2 hshare
    rw [pairingPlayers_cons] at hnodup
    simp only [List.map_cons] at hnodup
    have h1 := List.nodup_cons.mp hnodup
    have h2 := List.nodup_cons.mp h1.2
    have hB : ∀ a ∈ pairingPlayers P, a.id ≠ pr0.p1.id := by
      intro a ha heq
      exact h1.1 (List.mem_cons.mpr (Or.inr (List.mem_map.mpr ⟨a, ha, heq⟩)))
    have hC : ∀ a ∈ pairingPlayers P, a.id ≠ pr0.p2.id := by
      intro a ha heq
      exact h2.1 (List.mem_map.mpr ⟨a, ha, heq⟩)
    have hmemP : ∀ pr3 ∈ P, pr3.p1 ∈ pairingPlayers P ∧ pr3.p2 ∈ pairingPlayers P := by
      intro pr3 h3
      exact ⟨mem_pairingPlayers.mpr ⟨pr3, h3, Or.inl rfl⟩,
        mem_pairingPlayers.mpr ⟨pr3, h3, Or.inr rfl⟩⟩
    rcases List.mem_cons.mp hpr with rfl | hprtl
    · rcases List.mem_cons.mp hpr2 with rfl | hpr2tl
      · rfl
      · exfalso
        obtain ⟨hm1, hm2⟩ := hmemP pr2 hpr2tl
        rcases hshare with h | h | h | h
        · exact hB pr2.p1 hm1 h.symm
        · exact hB pr2.p2 hm2 h.symm
        · exact hC pr2.p1 hm1 h.symm
        · exact hC pr2.p2 hm2 h.symm
    · rcases List.mem_cons.mp hpr2 with rfl | hpr2tl
      · exfalso
        obtain ⟨hm1, hm2⟩ := hmemP pr hprtl
        rcases hshare with h | h | h | h
        · exact hB pr.p1 hm1 h
        · exact hC pr.p1 hm1 h
        · exact hB pr.p2 hm2 h
        · exact hC pr.p2 hm2 h
      · exact ih h2.2 pr hprtl pr2 hpr2tl hshare

theorem exists_not_mem_of_length_lt {T P : List Pairing}
    (hlt : T.length < P.length) (hP : P.Nodup) : ∃ pr ∈ P, pr ∉ T := by
  by_contra h
  push_neg at h
  have hsub : P ⊆ T := fun pr hpr => h pr hpr
  have := (hP.subperm hsub).length_le
  omega

/-- The shared success-branch argument for C10: the built pairs partition the
roster, contain no self-id pair, and for oversized rosters some pair's
players appear in no built match. -/
theorem usedPairs_partition_aux (players : List Player) (numCourts : ℕ)
    (cr : ℕ → ℚ) (shuffled : List Player) (P : List Pairing)
    (hshuf : shuffled.Perm players)
    (hP : (pairingPlayers P).Perm shuffled)
    (hids : (players.map Player.id).Nodup)
    (hlen : numCourts * 4 ≤ players.length) :
    (pairingPlayers P).Perm players ∧
    2 * P.length = players.length ∧
    (∀ pr ∈ P, pr.p1.id ≠ pr.p2.id) ∧
    (numCourts * 4 < players.length →
      ∃ pr ∈ P, ∀ m ∈ buildMatchesFromPairs
          ((optimizeCourts P numCourts cr).getD P) 1 numCourts,
        pr.p1.id ∉ matchIds m ∧ pr.p2.id ∉ matchIds m) := by
  have hPp : (pairingPlayers P).Perm players := hP.trans hshuf
  have hidsP : ((pairingPlayers P).map Player.id).Nodup :=
    ((hPp.map Player.id).nodup_iff).mpr hids
  have hPlen : 2 * P.length = players.length := by
    have h1 := hPp.length_eq
    rw [pairingPlayers_length] at h1
    omega
  refine ⟨hPp, hPlen, pair_ids_distinct_of_nodup hidsP, ?_⟩
  intro hgt
  obtain ⟨h1, h2, h3, h4, h5, h6⟩ :=
    successMatches_valid_ge players numCourts cr shuffled P hshuf hP hlen
  have hTsub : ((((optimizeCourts P numCourts cr).getD P).take
      (2 * numCourts))).Subperm P :=
    ((List.take_sublist _ _).subperm).trans h5
  have hTlen : (((optimizeCourts P numCourts cr).getD P).take
      (2 * numCourts)).length = 2 * numCourts := by
    rw [List.length_take]
    omega
  obtain ⟨pr, hprP, hprT⟩ := exists_not_mem_of_length_lt
    (T := ((optimizeCourts P numCourts cr).getD P).take (2 * numCourts))
    (by omega) (pairs_nodup_of_ids_nodup hidsP)
  refine ⟨pr, hprP, ?_⟩
  have hflatids : (buildMatchesFromPairs ((optimizeCourts P numCourts cr).getD P)
        1 numCourts).flatMap matchIds
      = (pairingPlayers (((optimizeCourts P numCourts cr).getD P).take
          (2 * numCourts))).map Player.id := by
    rw [← h4, List.map_flatMap]
    rfl
  have hnotmem : ∀ i : ℕ, (i = pr.p1.id ∨ i = pr.p2.id) →
      i ∉ (pairingPlayers (((optimizeCourts P numCourts cr).getD P).take
        (2 * numCourts))).map Player.id := by
    intro i hi hmem
    obtain ⟨a, haT, haid⟩ := List.mem_map.mp hmem
    obtain ⟨pr2, hpr2T, hside⟩ := mem_pairingPlayers.mp haT
    have hpr2P : pr2 ∈ P := hTsub.subset hpr2T
    have hshare : pr.p1.id = pr2.p1.id ∨ pr.p1.id = pr2.p2.id ∨
        pr.p2.id = pr2.p1.id ∨ pr.p2.id = pr2.p2.id := by
      rcases hi with rfl | rfl
      · rcases hside with rfl | rfl
        · exact Or.inl haid.symm
        · exact Or.inr (Or.inl haid.symm)
      · rcases hside with rfl | rfl
        · exact Or.inr (Or.inr (Or.inl haid.symm))
        · exact Or.inr (Or.inr (Or.inr haid.symm))
    have := pairs_share_id_eq hidsP pr hprP pr2 hpr2P hshare
    subst this
    exact hprT hpr2T
  intro m hm
  constructor
  · intro hmem
    refine hnotmem pr.p1.id (Or.inl rfl) ?_
    rw [← hflatids]
    exact List.mem_flatMap.mpr ⟨m, hm, hmem⟩
  · intro hmem
    refine hnotmem pr.p2.id (Or.inr rfl) ?_
    rw [← hflatids]
    exact List.mem_flatMap.mpr ⟨m, hm, hmem⟩

/-- C10: on any roster where round generation does not take the total
fallback (equivalently, by C9, any even roster meeting the size
precondition), `usedPairs` consists of exactly `players.length / 2` disjoint
pairs partitioning the whole roster (each player in exactly one pair, no
player paired with themself); consequently, when `players.length` exceeds
`numCourts * 4`, some reported pair's players appear in no returned match —
excess pairs are dropped from the matches but still reported in
`usedPairs`. -/
theorem generateRound_usedPairs_partition (players : List Player) (numCourts : ℕ)
    (past : List String) (sr : ℕ → ℚ) (ro : ℕ → List ℕ → List ℕ) (cr : ℕ → ℚ)
    (hre : ∀ k l, (ro k l).Perm l)
    (hids : (players.map Player.id).Nodup)
    (heven : players.length % 2 = 0)
    (hlen : numCourts * 4 ≤ players.length) :
    ∃ r, generateRoundMatchesAvoidingPartners players numCourts past sr ro cr
        = .ok r ∧
      (pairingPlayers r.usedPairs).Perm players ∧
      2 * r.usedPairs.length = players.length ∧
      (∀ pr ∈ r.usedPairs, pr.p1.id ≠ pr.p2.id) ∧
      (numCourts * 4 < players.length →
        ∃ pr ∈ r.usedPairs, ∀ m ∈ r.«matches»,
          pr.p1.id ∉ matchIds m ∧ pr.p2.id ∉ matchIds m) := by
  have hnotlt : ¬ players.length < numCourts * 4 := by omega
  have hshuf := fisherYates_perm sr players
  rcases hstrict : buildPairs (fisherYates sr players) past false ro 0 with ⟨r1, k1⟩
  rcases r1 with _ | P
  · have hevensh : (fisherYates sr players).length % 2 = 0 := by
      rw [hshuf.length_eq]
      exact heven
    obtain ⟨P, k2, hrel⟩ :=
      buildPairs_relaxed_complete (fisherYates sr players) past ro hre hevensh k1
    obtain ⟨hc1, hc2, hc3, hc4⟩ := usedPairs_partition_aux players numCourts cr
      (fisherYates sr players) P hshuf (buildPairs_sound _ _ _ _ _ _ _ hrel).1
      hids hlen
    exact ⟨_, generateRound_eq_relaxed players numCourts past sr ro cr P k1 k2
      hnotlt hstrict hrel, hc1, hc2, hc3, hc4⟩
  · obtain ⟨hc1, hc2, hc3, hc4⟩ := usedPairs_partition_aux players numCourts cr
      (fisherYates sr players) P hshuf (buildPairs_sound _ _ _ _ _ _ _ hstrict).1
      hids hlen
    exact ⟨_, generateRound_eq_strict players numCourts past sr ro cr P k1
      hnotlt hstrict, hc1, hc2, hc3, hc4⟩

/-- Witness for C10: six distinct players on one court (an oversized even
roster, so the excess-pair conclusion is exercised). -/
theorem generateRound_usedPairs_partition_witness :
    (∀ k l, (idReorder k l).Perm l) ∧
    (([wPlayer 1, wPlayer 2, wPlayer 3, wPlayer 4, wPlayer 5, wPlayer 6].map
      Player.id).Nodup) ∧
    [wPlayer 1, wPlayer 2, wPlayer 3, wPlayer 4, wPlayer 5, wPlayer 6].length % 2 = 0 ∧
    1 * 4 ≤ [wPlayer 1, wPlayer 2, wPlayer 3, wPlayer 4, wPlayer 5, wPlayer 6].length ∧
    (∃ r, generateRoundMatchesAvoidingPartners
        [wPlayer 1, wPlayer 2, wPlayer 3, wPlayer 4, wPlayer 5, wPlayer 6] 1 []
        zeroRand idReorder zeroRand = .ok r ∧
      (pairingPlayers r.usedPairs).Perm
        [wPlayer 1, wPlayer 2, wPlayer 3, wPlayer 4, wPlayer 5, wPlayer 6] ∧
      2 * r.usedPairs.length
        = [wPlayer 1, wPlayer 2, wPlayer 3, wPlayer 4, wPlayer 5, wPlayer 6].length ∧
      (∀ pr ∈ r.usedPairs, pr.p1.id ≠ pr.p2.id) ∧
      (1 * 4 < [wPlayer 1, wPlayer 2, wPlayer 3, wPlayer 4, wPlayer 5,
          wPlayer 6].length →
        ∃ pr ∈ r.usedPairs, ∀ m ∈ r.«matches»,
          pr.p1.id ∉ matchIds m ∧ pr.p2.id ∉ matchIds m)) :=
  ⟨idReorder_perm, by decide, by decide, by decide,
    generateRound_usedPairs_partition
      [wPlayer 1, wPlayer 2, wPlayer 3, wPlayer 4, wPlayer 5, wPlayer 6] 1 []
      zeroRand idReorder zeroRand idReorder_perm (by decide) (by decide) (by decide)⟩

/-! ### updateLast toolkit -/

theorem updateLast_length (pid : ℕ) (f : Player → Player) :
    ∀ l : List Player, (updateLast pid f l).length = l.length := by
  intro l
  induction l with
  | nil => rfl
  | cons p rest ih =>
    simp only [updateLast]
    split
    · simp [ih]
    · split
      · simp
      · rfl

theorem updateLast_map_id (pid : ℕ) (f : Player → Player)
    (hf : ∀ u, (f u).id = u.id) :
    ∀ l : List Player, (updateLast pid f l).map Player.id = l.map Player.id := by
  intro l
  induction l with
  | nil => rfl
  | cons p rest ih =>
    simp only [updateLast]
    split
    · simp [ih]
    · split
      · simp [hf]
      · rfl

theorem updateLast_untouched (pid : ℕ) (f : Player → Player) :
    ∀ (l : List Player) (i : ℕ) (p : Player), l[i]? = some p → p.id ≠ pid →
    (updateLast pid f l)[i]? = some p := by
  intro l
  induction l with
  | nil => intro i p h; simp at h
  | cons p0 rest ih =>
    intro i p hget hne
    simp only [updateLast]
    split
    · match i, hget with
      | 0, hget => simpa using hget
      | i + 1, hget =>
        simp only [List.getElem?_cons_succ] at hget ⊢
        exact ih i p hget hne
    · split
      · match i, hget with
        | 0, hget =>
          exfalso
          simp only [List.getElem?_cons_zero, Option.some.injEq] at hget
          subst hget
          rename_i hid
          exact hne hid
        | i + 1, hget => simpa using hget
      · exact hget

theorem contains_ids_iff (l : List ℕ) (x : ℕ) : l.contains x = true ↔ x ∈ l := by
  simp

theorem updateLast_touched (pid : ℕ) (f : Player → Player) :
    ∀ (l : List Player) (i : ℕ) (p : Player), (l.map Player.id).Nodup →
    l[i]? = some p → p.id = pid →
    (updateLast pid f l)[i]? = some (f p) := by
  intro l
  induction l with
  | nil => intro i p _ h; simp at h
  | cons p0 rest ih =>
    intro i p hnodup hget hpid
    have hnd : p0.id ∉ rest.map Player.id ∧ (rest.map Player.id).Nodup := by
      rw [List.map_cons] at hnodup
      exact List.nodup_cons.mp hnodup
    simp only [updateLast]
    split
    · rename_i hcont
      match i, hget with
      | 0, hget =>
        exfalso
        simp only [List.getElem?_cons_zero, Option.some.injEq] at hget
        subst hget
        refine hnd.1 ?_
        rw [hpid]
        exact (contains_ids_iff _ _).mp hcont
      | i + 1, hget =>
        simp only [List.getElem?_cons_succ] at hget ⊢
        exact ih i p hnd.2 hget hpid
    · rename_i hcont
      have hpidrest : pid ∉ rest.map Player.id := by
        intro hmem
        exact hcont ((contains_ids_iff _ _).mpr hmem)
      split
      · match i, hget with
        | 0, hget =>
          simp only [List.getElem?_cons_zero, Option.some.injEq] at hget
          subst hget
          simp
        | i + 1, hget =>
          exfalso
          simp only [List.getElem?_cons_succ] at hget
          have hmem : p ∈ rest := List.getElem?_mem hget
          refine hpidrest ?_
          rw [← hpid]
          exact List.mem_map.mpr ⟨p, hmem, rfl⟩
      · rename_i hhead
        match i, hget with
        | 0, hget =>
          exfalso
          simp only [List.getElem?_cons_zero, Option.some.injEq] at hget
          subst hget
          exact hhead hpid
        | i + 1, hget =>
          exfalso
          simp only [List.getElem?_cons_succ] at hget
          have hmem : p ∈ rest := List.getElem?_mem hget
          refine hpidrest ?_
          rw [← hpid]
          exact List.mem_map.mpr ⟨p, hmem, rfl⟩

/-! ### The per-side update loops of `applyResults` -/

theorem side1Update_id (diff : ℚ) (w : Side) (u : Player) :
    (side1Update diff w u).id = u.id := by
  simp only [side1Update]
  split <;> rfl

theorem side2Update_id (diff : ℚ) (w : Side) (u : Player) :
    (side2Update diff w u).id = u.id := by
  simp only [side2Update]
  split <;> rfl

theorem foldUpdate_length (g : Player → Player) :
    ∀ (s l : List Player),
    (s.foldl (fun acc p => updateLast p.id g acc) l).length = l.length := by
  intro s
  induction s with
  | nil => intro l; rfl
  | cons q s2 ih =>
    intro l
    simp only [List.foldl_cons]
    rw [ih, updateLast_length]

theorem foldUpdate_map_id (g : Player → Player) (hg : ∀ u, (g u).id = u.id) :
    ∀ (s l : List Player),
    (s.foldl (fun acc p => updateLast p.id g acc) l).map Player.id =
      l.map Player.id := by
  intro s
  induction s with
  | nil => intro l; rfl
  | cons q s2 ih =>
    intro l
    simp only [List.foldl_cons]
    rw [ih, updateLast_map_id _ _ hg]

theorem foldUpdate_untouched (g : Player → Player) :
    ∀ (s l : List Player) (i : ℕ) (p : Player), l[i]? = some p →
    (∀ q ∈ s, p.id ≠ q.id) →
    (s.foldl (fun acc p => updateLast p.id g acc) l)[i]? = some p := by
  intro s
  induction s with
  | nil => intro l i p hget _; exact hget
  | cons q s2 ih =>
    intro l i p hget hnot
    simp only [List.foldl_cons]
    refine ih _ i p ?_ fun r hr => hnot r (List.mem_cons_of_mem _ hr)
    exact updateLast_untouched q.id g l i p hget (hnot q (List.mem_cons_self _ _))

theorem foldUpdate_touched (g : Player → Player) (hg : ∀ u, (g u).id = u.id) :
    ∀ (s l : List Player) (i : ℕ) (p q : Player),
    (l.map Player.id).Nodup → (s.map Player.id).Nodup →
    q ∈ s → l[i]? = some p → p.id = q.id →
    (s.foldl (fun acc p => updateLast p.id g acc) l)[i]? = some (g p) := by
  intro s
  induction s with
  | nil => intro l i p q _ _ hq; exact absurd hq (List.not_mem_nil q)
  | cons q0 s2 ih =>
    intro l i p q hl hs hq hget hid
    have hs2 : q0.id ∉ s2.map Player.id ∧ (s2.map Player.id).Nodup := by
      rw [List.map_cons] at hs
      exact List.nodup_cons.mp hs
    simp only [List.foldl_cons]
    rcases List.mem_cons.mp hq with hq0 | hq2
    · subst hq0
      have h1 : (updateLast q.id g l)[i]? = some (g p) :=
        updateLast_touched q.id g l i p hl hget hid
      refine foldUpdate_untouched g s2 _ i (g p) h1 ?_
      intro r hr hcontra
      refine hs2.1 ?_
      rw [← hid, ← hg p, hcontra]
      exact List.mem_map.mpr ⟨r, hr, rfl⟩
    · have hne : p.id ≠ q0.id := by
        intro hcontra
        refine hs2.1 ?_
        rw [← hcontra, hid]
        exact List.mem_map.mpr ⟨q, hq2, rfl⟩
      have h1 : (updateLast q0.id g l)[i]? = some p :=
        updateLast_untouched q0.id g l i p hget hne
      have hl1 : ((updateLast q0.id g l).map Player.id).Nodup := by
        rw [updateLast_map_id _ _ hg]; exact hl
      exact ih _ i p q hl1 hs2.2 hq2 h1 hid

theorem applyMatchScore_length (m : Match) (s1 s2 : ℚ) (l : List Player) :
    (applyMatchScore m s1 s2 l).length = l.length := by
  simp only [applyMatchScore]
  rw [foldUpdate_length, foldUpdate_length]

theorem applyMatchScore_map_id (m : Match) (s1 s2 : ℚ) (l : List Player) :
    (applyMatchScore m s1 s2 l).map Player.id = l.map Player.id := by
  simp only [applyMatchScore]
  rw [foldUpdate_map_id _ (side2Update_id _ _), foldUpdate_map_id _ (side1Update_id _ _)]

theorem applyMatchScore_untouched (m : Match) (s1 s2 : ℚ) (l : List Player)
    (i : ℕ) (p : Player) (hget : l[i]? = some p) (hnot : p.id ∉ matchIds m) :
    (applyMatchScore m s1 s2 l)[i]? = some p := by
  have h1 : ∀ q ∈ m.side1, p.id ≠ q.id := by
    intro q hq hcontra
    exact hnot (by
      simp only [matchIds, List.map_append, List.mem_append]
      exact Or.inl (List.mem_map.mpr ⟨q, hq, hcontra.symm⟩))
  have h2 : ∀ q ∈ m.side2, p.id ≠ q.id := by
    intro q hq hcontra
    exact hnot (by
      simp only [matchIds, List.map_append, List.mem_append]
      exact Or.inr (List.mem_map.mpr ⟨q, hq, hcontra.symm⟩))
  simp only [applyMatchScore]
  exact foldUpdate_untouched _ _ _ i p (foldUpdate_untouched _ _ _ i p hget h1) h2

theorem applyMatchScore_touched_side1 (m : Match) (s1 s2 : ℚ) (l : List Player)
    (i : ℕ) (p q : Player) (hl : (l.map Player.id).Nodup)
    (hm : (matchIds m).Nodup) (hq : q ∈ m.side1) (hget : l[i]? = some p)
    (hid : p.id = q.id) :
    (applyMatchScore m s1 s2 l)[i]? =
      some (side1Update (s1 - s2) (if 0 < s1 - s2 then .SIDE_1 else .SIDE_2) p) := by
  have hmm : (m.side1.map Player.id).Nodup ∧ (m.side2.map Player.id).Nodup ∧
      ∀ x ∈ m.side1.map Player.id, x ∉ m.side2.map Player.id := by
    simp only [matchIds, List.map_append] at hm
    rcases List.nodup_append.mp hm with ⟨h1, h2, h3⟩
    exact ⟨h1, h2, h3⟩
  simp only [applyMatchScore]
  set u := side1Update (s1 - s2) (if 0 < s1 - s2 then Side.SIDE_1 else Side.SIDE_2) p with hu
  have h1 : (m.side1.foldl (fun acc p => updateLast p.id
      (side1Update (s1 - s2) (if 0 < s1 - s2 then Side.SIDE_1 else Side.SIDE_2)) acc) l)[i]? =
      some u :=
    foldUpdate_touched _ (side1Update_id _ _) m.side1 l i p q hl hmm.1 hq hget hid
  refine foldUpdate_untouched _ _ _ i u h1 ?_
  intro r hr hcontra
  refine hmm.2.2 p.id ?_ ?_
  · rw [hid]; exact List.mem_map.mpr ⟨q, hq, rfl⟩
  · have : u.id = p.id := side1Update_id _ _ p
    rw [← this, hcontra]
    exact List.mem_map.mpr ⟨r, hr, rfl⟩

theorem applyMatchScore_touched_side2 (m : Match) (s1 s2 : ℚ) (l : List Player)
    (i : ℕ) (p q : Player) (hl : (l.map Player.id).Nodup)
    (hm : (matchIds m).Nodup) (hq : q ∈ m.side2) (hget : l[i]? = some p)
    (hid : p.id = q.id) :
    (applyMatchScore m s1 s2 l)[i]? =
      some (side2Update (s1 - s2) (if 0 < s1 - s2 then .SIDE_1 else .SIDE_2) p) := by
  have hmm : (m.side1.map Player.id).Nodup ∧ (m.side2.map Player.id).Nodup ∧
      ∀ x ∈ m.side1.map Player.id, x ∉ m.side2.map Player.id := by
    simp only [matchIds, List.map_append] at hm
    rcases List.nodup_append.mp hm with ⟨h1, h2, h3⟩
    exact ⟨h1, h2, h3⟩
  simp only [applyMatchScore]
  have hnot1 : ∀ r ∈ m.side1, p.id ≠ r.id := by
    intro r hr hcontra
    refine hmm.2.2 p.id ?_ ?_
    · rw [hcontra]; exact List.mem_map.mpr ⟨r, hr, rfl⟩
    · rw [hid]; exact List.mem_map.mpr ⟨q, hq, rfl⟩
  have h1 : (m.side1.foldl (fun acc p => updateLast p.id
      (side1Update (s1 - s2) (if 0 < s1 - s2 then Side.SIDE_1 else Side.SIDE_2)) acc) l)[i]? =
      some p :=
    foldUpdate_untouched _ _ _ i p hget hnot1
  have hl1 : ((m.side1.foldl (fun acc p => updateLast p.id
      (side1Update (s1 - s2) (if 0 < s1 - s2 then Side.SIDE_1 else Side.SIDE_2)) acc) l).map
      Player.id).Nodup := by
    rw [foldUpdate_map_id _ (side1Update_id _ _)]; exact hl
  exact foldUpdate_touched _ (side2Update_id _ _) m.side2 _ i p q hl1 hmm.2.1 hq h1 hid

/-- One iteration of the `for (const match of matches)` loop: validate the
score entry (throwing its error) and otherwise mutate via `applyMatchScore`. -/
theorem applyResultsGo_cons (sc : ℕ → Option MatchScore) (m : Match)
    (rest : List Match) (l : List Player) :
    applyResultsGo sc (m :: rest) l =
      match scoreError m.courtNumber (sc m.courtNumber) with
      | some e => .error e
      | none => applyResultsGo sc rest
          (applyMatchScore m (scoreS1 (sc m.courtNumber)) (scoreS2 (sc m.courtNumber)) l) := by
  cases hsc : sc m.courtNumber with
  | none => simp [applyResultsGo, scoreError, hsc]
  | some score =>
    rcases score with ⟨a, b⟩
    rcases a with q1 | _ | _ | _ <;> rcases b with q2 | _ | _ | _ <;>
      (simp only [applyResultsGo, scoreError, scoreS1, scoreS2, hsc]
       all_goals first
       | rfl
       | (split_ifs <;> rfl))

theorem applyResultsGo_ok_iff (sc : ℕ → Option MatchScore) :
    ∀ (ms : List Match) (l : List Player),
    (∃ out, applyResultsGo sc ms l = .ok out) ↔
      ∀ m ∈ ms, scoreError m.courtNumber (sc m.courtNumber) = none := by
  intro ms
  induction ms with
  | nil => intro l; simp [applyResultsGo]
  | cons m0 rest ih =>
    intro l
    rw [applyResultsGo_cons]
    cases herr : scoreError m0.courtNumber (sc m0.courtNumber) with
    | some e =>
      simp only [List.mem_cons]
      constructor
      · rintro ⟨out, hout⟩; exact absurd hout (by simp)
      · intro hall; exact absurd (hall m0 (Or.inl rfl)) (by simp [herr])
    | none =>
      rw [ih]
      constructor
      · intro hall m hm
        rcases List.mem_cons.mp hm with h | h
        · rw [h]; exact herr
        · exact hall m h
      · intro hall m hm; exact hall m (List.mem_cons_of_mem _ hm)

theorem applyResultsGo_error_iff (sc : ℕ → Option MatchScore) :
    ∀ (ms : List Match) (l : List Player) (e : String),
    applyResultsGo sc ms l = .error e ↔
      ∃ l1 m l2, ms = l1 ++ m :: l2 ∧
        (∀ m2 ∈ l1, scoreError m2.courtNumber (sc m2.courtNumber) = none) ∧
        scoreError m.courtNumber (sc m.courtNumber) = some e := by
  intro ms
  induction ms with
  | nil =>
    intro l e
    simp only [applyResultsGo]
    constructor
    · intro h; exact absurd h (by simp)
    · rintro ⟨l1, m, l2, habs, -, -⟩
      exact absurd habs (by simp)
  | cons m0 rest ih =>
    intro l e
    rw [applyResultsGo_cons]
    cases herr : scoreError m0.courtNumber (sc m0.courtNumber) with
    | some e0 =>
      simp only [Except.error.injEq]
      constructor
      · intro h
        exact ⟨[], m0, rest, rfl, by simp, by rw [herr, h]⟩
      · rintro ⟨l1, m, l2, hsplit, hpre, hm⟩
        cases l1 with
        | nil =>
          simp only [List.nil_append, List.cons.injEq] at hsplit
          rw [← hsplit.1, herr] at hm
          exact Option.some.inj hm
        | cons x l1t =>
          simp only [List.cons_append, List.cons.injEq] at hsplit
          have := hpre x (List.mem_cons_self _ _)
          rw [← hsplit.1, herr] at this
          exact absurd this (by simp)
    | none =>
      rw [ih]
      constructor
      · rintro ⟨l1, m, l2, hsplit, hpre, hm⟩
        refine ⟨m0 :: l1, m, l2, by rw [hsplit]; rfl, ?_, hm⟩
        intro m2 hm2
        rcases List.mem_cons.mp hm2 with h | h
        · rw [h]; exact herr
        · exact hpre m2 h
      · rintro ⟨l1, m, l2, hsplit, hpre, hm⟩
        cases l1 with
        | nil =>
          simp only [List.nil_append, List.cons.injEq] at hsplit
          rw [← hsplit.1, herr] at hm
          exact absurd hm (by simp)
        | cons x l1t =>
          simp only [List.cons_append, List.cons.injEq] at hsplit
          refine ⟨l1t, m, l2, hsplit.2, ?_, hm⟩
          intro m2 hm2
          exact hpre m2 (List.mem_cons_of_mem _ hm2)

theorem applyResultsGo_ok_length (sc : ℕ → Option MatchScore) :
    ∀ (ms : List Match) (l out : List Player),
    applyResultsGo sc ms l = .ok out → out.length = l.length := by
  intro ms
  induction ms with
  | nil =>
    intro l out h
    simp only [applyResultsGo, Except.ok.injEq] at h
    rw [← h]
  | cons m0 rest ih =>
    intro l out h
    rw [applyResultsGo_cons] at h
    cases herr : scoreError m0.courtNumber (sc m0.courtNumber) with
    | some e => rw [herr] at h; exact absurd h (by simp)
    | none =>
      rw [herr] at h
      rw [ih _ _ h, applyMatchScore_length]

theorem applyResultsGo_map_id (sc : ℕ → Option MatchScore) :
    ∀ (ms : List Match) (l out : List Player),
    applyResultsGo sc ms l = .ok out → out.map Player.id = l.map Player.id := by
  intro ms
  induction ms with
  | nil =>
    intro l out h
    simp only [applyResultsGo, Except.ok.injEq] at h
    rw [← h]
  | cons m0 rest ih =>
    intro l out h
    rw [applyResultsGo_cons] at h
    cases herr : scoreError m0.courtNumber (sc m0.courtNumber) with
    | some e => rw [herr] at h; exact absurd h (by simp)
    | none =>
      rw [herr] at h
      rw [ih _ _ h, applyMatchScore_map_id]

theorem applyResultsGo_untouched (sc : ℕ → Option MatchScore) :
    ∀ (ms : List Match) (l out : List Player) (i : ℕ) (p : Player),
    applyResultsGo sc ms l = .ok out → l[i]? = some p →
    p.id ∉ roundIds ms → out[i]? = some p := by
  intro ms
  induction ms with
  | nil =>
    intro l out i p h hget _
    simp only [applyResultsGo, Except.ok.injEq] at h
    rw [← h]; exact hget
  | cons m0 rest ih =>
    intro l out i p h hget hnot
    rw [applyResultsGo_cons] at h
    cases herr : scoreError m0.courtNumber (sc m0.courtNumber) with
    | some e => rw [herr] at h; exact absurd h (by simp)
    | none =>
      rw [herr] at h
      have hr : roundIds (m0 :: rest) = matchIds m0 ++ roundIds rest := by
        simp [roundIds]
      rw [hr, List.mem_append] at hnot
      push_neg at hnot
      exact ih _ _ i p h (applyMatchScore_untouched _ _ _ _ i p hget hnot.1) hnot.2

theorem mem_matchIds_side1 (m : Match) (q : Player) (hq : q ∈ m.side1) :
    q.id ∈ matchIds m := by
  simp only [matchIds, List.map_append, List.mem_append]
  exact Or.inl (List.mem_map.mpr ⟨q, hq, rfl⟩)

theorem mem_matchIds_side2 (m : Match) (q : Player) (hq : q ∈ m.side2) :
    q.id ∈ matchIds m := by
  simp only [matchIds, List.map_append, List.mem_append]
  exact Or.inr (List.mem_map.mpr ⟨q, hq, rfl⟩)

theorem flatMap_nodup_split (m0 : Match) (rest : List Match)
    (h : (((m0 :: rest).flatMap matchIds)).Nodup) :
    (matchIds m0).Nodup ∧ (rest.flatMap matchIds).Nodup ∧
      ∀ x ∈ matchIds m0, x ∉ rest.flatMap matchIds := by
  rw [List.flatMap_cons, List.nodup_append] at h
  exact h

theorem applyResultsGo_touched_side1 (sc : ℕ → Option MatchScore) :
    ∀ (ms : List Match) (l out : List Player) (m : Match) (s1 s2 : ℚ)
      (i : ℕ) (p q : Player),
    (l.map Player.id).Nodup → (ms.flatMap matchIds).Nodup →
    applyResultsGo sc ms l = .ok out → m ∈ ms →
    sc m.courtNumber = some ⟨.num s1, .num s2⟩ →
    q ∈ m.side1 → l[i]? = some p → p.id = q.id →
    out[i]? = some (side1Update (s1 - s2) (if 0 < s1 - s2 then .SIDE_1 else .SIDE_2) p) := by
  intro ms
  induction ms with
  | nil => intro l out m s1 s2 i p q _ _ _ hm; exact absurd hm (List.not_mem_nil m)
  | cons m0 rest ih =>
    intro l out m s1 s2 i p q hl hflat hok hm hsc hq hget hid
    obtain ⟨hn1, hn2, hdisj⟩ := flatMap_nodup_split m0 rest hflat
    rw [applyResultsGo_cons] at hok
    cases herr : scoreError m0.courtNumber (sc m0.courtNumber) with
    | some e => rw [herr] at hok; exact absurd hok (by simp)
    | none =>
      rw [herr] at hok
      rcases List.mem_cons.mp hm with hm0 | hmr
      · subst hm0
        have ha : scoreS1 (sc m.courtNumber) = s1 := by rw [hsc]; rfl
        have hb : scoreS2 (sc m.courtNumber) = s2 := by rw [hsc]; rfl
        rw [ha, hb] at hok
        have h1 := applyMatchScore_touched_side1 m s1 s2 l i p q hl hn1 hq hget hid
        refine applyResultsGo_untouched sc rest _ out i _ hok h1 ?_
        show (side1Update (s1 - s2) _ p).id ∉ rest.flatMap matchIds
        rw [side1Update_id, hid]
        exact hdisj q.id (mem_matchIds_side1 m q hq)
      · have hnot0 : p.id ∉ matchIds m0 := by
          intro hmem
          refine hdisj p.id hmem ?_
          rw [hid]
          exact List.mem_flatMap.mpr ⟨m, hmr, mem_matchIds_side1 m q hq⟩
        have h1 := applyMatchScore_untouched m0 (scoreS1 (sc m0.courtNumber))
          (scoreS2 (sc m0.courtNumber)) l i p hget hnot0
        have hl1 : ((applyMatchScore m0 (scoreS1 (sc m0.courtNumber))
            (scoreS2 (sc m0.courtNumber)) l).map Player.id).Nodup := by
          rw [applyMatchScore_map_id]; exact hl
        exact ih _ out m s1 s2 i p q hl1 hn2 hok hmr hsc hq h1 hid

theorem applyResultsGo_touched_side2 (sc : ℕ → Option MatchScore) :
    ∀ (ms : List Match) (l out : List Player) (m : Match) (s1 s2 : ℚ)
      (i : ℕ) (p q : Player),
    (l.map Player.id).Nodup → (ms.flatMap matchIds).Nodup →
    applyResultsGo sc ms l = .ok out → m ∈ ms →
    sc m.courtNumber = some ⟨.num s1, .num s2⟩ →
    q ∈ m.side2 → l[i]? = some p → p.id = q.id →
    out[i]? = some (side2Update (s1 - s2) (if 0 < s1 - s2 then .SIDE_1 else .SIDE_2) p) := by
  intro ms
  induction ms with
  | nil => intro l out m s1 s2 i p q _ _ _ hm; exact absurd hm (List.not_mem_nil m)
  | cons m0 rest ih =>
    intro l out m s1 s2 i p q hl hflat hok hm hsc hq hget hid
    obtain ⟨hn1, hn2, hdisj⟩ := flatMap_nodup_split m0 rest hflat
    rw [applyResultsGo_cons] at hok
    cases herr : scoreError m0.courtNumber (sc m0.courtNumber) with
    | some e => rw [herr] at hok; exact absurd hok (by simp)
    | none =>
      rw [herr] at hok
      rcases List.mem_cons.mp hm with hm0 | hmr
      · subst hm0
        have ha : scoreS1 (sc m.courtNumber) = s1 := by rw [hsc]; rfl
        have hb : scoreS2 (sc m.courtNumber) = s2 := by rw [hsc]; rfl
        rw [ha, hb] at hok
        have h1 := applyMatchScore_touched_side2 m s1 s2 l i p q hl hn1 hq hget hid
        refine applyResultsGo_untouched sc rest _ out i _ hok h1 ?_
        show (side2Update (s1 - s2) _ p).id ∉ rest.flatMap matchIds
        rw [side2Update_id, hid]
        exact hdisj q.id (mem_matchIds_side2 m q hq)
      · have hnot0 : p.id ∉ matchIds m0 := by
          intro hmem
          refine hdisj p.id hmem ?_
          rw [hid]
          exact List.mem_flatMap.mpr ⟨m, hmr, mem_matchIds_side2 m q hq⟩
        have h1 := applyMatchScore_untouched m0 (scoreS1 (sc m0.courtNumber))
          (scoreS2 (sc m0.courtNumber)) l i p hget hnot0
        have hl1 : ((applyMatchScore m0 (scoreS1 (sc m0.courtNumber))
            (scoreS2 (sc m0.courtNumber)) l).map Player.id).Nodup := by
          rw [applyMatchScore_map_id]; exact hl
        exact ih _ out m s1 s2 i p q hl1 hn2 hok hmr hsc hq h1 hid

/-! ### The per-player update records, spelt out -/

theorem side1Update_eq (diff : ℚ) (p : Player) :
    side1Update diff (if 0 < diff then .SIDE_1 else .SIDE_2) p =
      if 0 < diff then
        { p with wins := p.wins + 1, pointDiff := p.pointDiff + diff, lossStreak := 0 }
      else
        { p with pointDiff := p.pointDiff + diff, lossStreak := p.lossStreak + 1 } := by
  by_cases h : 0 < diff <;> simp [side1Update, h]

theorem side2Update_eq (diff : ℚ) (p : Player) :
    side2Update diff (if 0 < diff then .SIDE_1 else .SIDE_2) p =
      if 0 < diff then
        { p with pointDiff := p.pointDiff - diff, lossStreak := p.lossStreak + 1 }
      else
        { p with wins := p.wins + 1, pointDiff := p.pointDiff - diff, lossStreak := 0 } := by
  by_cases h : 0 < diff <;> simp [side2Update, h]

/-! ### The comparator realisation of `localeCompare` -/

theorem listCmp_anti : ∀ a b, listCmp a b = -listCmp b a := by
  intro a
  induction a with
  | nil => intro b; cases b <;> simp [listCmp]
  | cons x as ih =>
    intro b
    cases b with
    | nil => simp [listCmp]
    | cons y bs =>
      simp only [listCmp]
      split_ifs with h1 h2 h3 <;> first | omega | (rw [ih])

theorem listCmp_trans :
    ∀ a b c, listCmp a b ≤ 0 → listCmp b c ≤ 0 → listCmp a c ≤ 0 := by
  intro a
  induction a with
  | nil =>
    intro b c _ _
    cases c <;> simp [listCmp]
  | cons x as ih =>
    intro b c h1 h2
    cases b with
    | nil => simp [listCmp] at h1
    | cons y bs =>
      cases c with
      | nil => simp [listCmp] at h2
      | cons z cs =>
        simp only [listCmp] at h1 h2 ⊢
        split_ifs at h1 h2 ⊢ <;> first | omega | (exact ih bs cs h1 h2)

theorem strCmpInt_total (s t : String) : strCmpInt s t ≤ 0 ∨ strCmpInt t s ≤ 0 := by
  unfold strCmpInt
  rw [listCmp_anti]
  omega

theorem strCmpInt_trans (s t u : String) (h1 : strCmpInt s t ≤ 0)
    (h2 : strCmpInt t u ≤ 0) : strCmpInt s u ≤ 0 :=
  listCmp_trans _ _ _ h1 h2

theorem leaderboardCmp_le_iff (lc : String → String → Int) (a b : Player) :
    leaderboardCmp lc a b ≤ 0 ↔
      (b.wins < a.wins ∨
        (b.wins = a.wins ∧ b.pointDiff < a.pointDiff) ∨
        (b.wins = a.wins ∧ b.pointDiff = a.pointDiff ∧ lc a.name b.name ≤ 0)) := by
  unfold leaderboardCmp
  split_ifs with h1 h2
  · constructor
    · intro h
      exact Or.inl (lt_of_le_of_ne (sub_nonpos.mp h) h1)
    · rintro (h | ⟨he, -⟩ | ⟨he, -, -⟩)
      · exact sub_nonpos.mpr h.le
      · exact absurd he h1
      · exact absurd he h1
  · rw [not_ne_iff] at h1
    constructor
    · intro h
      exact Or.inr (Or.inl ⟨h1, lt_of_le_of_ne (sub_nonpos.mp h) h2⟩)
    · rintro (h | ⟨-, hp⟩ | ⟨-, hp, -⟩)
      · exact absurd h1 h.ne
      · exact sub_nonpos.mpr hp.le
      · exact absurd hp h2
  · rw [not_ne_iff] at h1 h2
    constructor
    · intro h
      exact Or.inr (Or.inr ⟨h1, h2, by exact_mod_cast h⟩)
    · rintro (h | ⟨-, hp⟩ | ⟨-, -, hn⟩)
      · exact absurd h1 h.ne
      · exact absurd hp.ne (by rw [h2]; exact fun hh => hh rfl)
      · exact_mod_cast hn

theorem leaderboardCmp_total (lc : String → String → Int)
    (htot : ∀ s t, lc s t ≤ 0 ∨ lc t s ≤ 0) (a b : Player) :
    leaderboardCmp lc a b ≤ 0 ∨ leaderboardCmp lc b a ≤ 0 := by
  rw [leaderboardCmp_le_iff, leaderboardCmp_le_iff]
  rcases lt_trichotomy b.wins a.wins with h | h | h
  · exact Or.inl (Or.inl h)
  · rcases lt_trichotomy b.pointDiff a.pointDiff with h2 | h2 | h2
    · exact Or.inl (Or.inr (Or.inl ⟨h, h2⟩))
    · rcases htot a.name b.name with h3 | h3
      · exact Or.inl (Or.inr (Or.inr ⟨h, h2, h3⟩))
      · exact Or.inr (Or.inr (Or.inr ⟨h.symm, h2.symm, h3⟩))
    · exact Or.inr (Or.inr (Or.inl ⟨h.symm, h2⟩))
  · exact Or.inr (Or.inl h)

theorem leaderboardCmp_trans (lc : String → String → Int)
    (htrans : ∀ s t u, lc s t ≤ 0 → lc t u ≤ 0 → lc s u ≤ 0) (a b c : Player)
    (hab : leaderboardCmp lc a b ≤ 0) (hbc : leaderboardCmp lc b c ≤ 0) :
    leaderboardCmp lc a c ≤ 0 := by
  rw [leaderboardCmp_le_iff] at hab hbc ⊢
  rcases hab with h1 | ⟨e1, h1⟩ | ⟨e1, f1, h1⟩ <;>
    rcases hbc with h2 | ⟨e2, h2⟩ | ⟨e2, f2, h2⟩
  · exact Or.inl (lt_trans h2 h1)
  · exact Or.inl (by rw [e2]; exact h1)
  · exact Or.inl (by rw [e2]; exact h1)
  · exact Or.inl (by rw [← e1]; exact h2)
  · exact Or.inr (Or.inl ⟨e2.trans e1, lt_trans h2 h1⟩)
  · exact Or.inr (Or.inl ⟨e2.trans e1, by rw [f2]; exact h1⟩)
  · exact Or.inl (by rw [← e1]; exact h2)
  · exact Or.inr (Or.inl ⟨e2.trans e1, by rw [← f1]; exact h2⟩)
  · exact Or.inr (Or.inr ⟨e2.trans e1, f2.trans f1, htrans _ _ _ h1 h2⟩)

/-- C7: `applyResults` is non-destructive: in this purely functional
embedding the input roster is a value the function cannot mutate, and an
error result carries no updated collection at all, so a failed call leaves
the caller's players exactly as they were (all-or-nothing); moreover
whenever a collection is returned it has the input's length and every
player who appears on no side of any match is returned unchanged at their
position. -/
theorem applyResults_frame (players : List Player) (ms : List Match)
    (sc : ℕ → Option MatchScore) (out : List Player)
    (hok : applyResults players ms sc = .ok out) :
    out.length = players.length ∧
    ∀ (i : ℕ) (p : Player), players[i]? = some p → p.id ∉ roundIds ms →
      out[i]? = some p :=
  ⟨applyResultsGo_ok_length sc ms players out hok,
    fun i p hget hnot => applyResultsGo_untouched sc ms players out i p hok hget hnot⟩

theorem applyResults_frame_witness :
    ([⟨1, "A", 1, 11, 0⟩, ⟨2, "B", 0, -11, 1⟩, ⟨3, "C", 0, 0, 0⟩] : List Player).length =
      ([⟨1, "A", 0, 0, 0⟩, ⟨2, "B", 0, 0, 0⟩, ⟨3, "C", 0, 0, 0⟩] : List Player).length ∧
    ∀ (i : ℕ) (p : Player),
      ([⟨1, "A", 0, 0, 0⟩, ⟨2, "B", 0, 0, 0⟩, ⟨3, "C", 0, 0, 0⟩] : List Player)[i]? = some p →
      p.id ∉ roundIds [⟨1, [⟨1, "A", 0, 0, 0⟩], [⟨2, "B", 0, 0, 0⟩]⟩] →
      ([⟨1, "A", 1, 11, 0⟩, ⟨2, "B", 0, -11, 1⟩, ⟨3, "C", 0, 0, 0⟩] : List Player)[i]? =
        some p :=
  applyResults_frame
    [⟨1, "A", 0, 0, 0⟩, ⟨2, "B", 0, 0, 0⟩, ⟨3, "C", 0, 0, 0⟩]
    [⟨1, [⟨1, "A", 0, 0, 0⟩], [⟨2, "B", 0, 0, 0⟩]⟩]
    (fun c => if c = 1 then some ⟨.num 21, .num 10⟩ else none)
    [⟨1, "A", 1, 11, 0⟩, ⟨2, "B", 0, -11, 1⟩, ⟨3, "C", 0, 0, 0⟩]
    (by with_unfolding_all rfl)

/-- C4: `applyResults` fails iff some match's score entry is invalid, and
the error is exactly the first failure in match order: a missing entry for
the match's court, a non-finite value on either side, a negative value, or
a tie, each with its message, checked in that order; when every match's
entry is present, finite on both sides, non-negative and unequal, the call
returns normally. -/
theorem applyResults_error_taxonomy :
    (∀ (players : List Player) (ms : List Match) (sc : ℕ → Option MatchScore),
      ((∃ out, applyResults players ms sc = .ok out) ↔
        ∀ m ∈ ms, scoreError m.courtNumber (sc m.courtNumber) = none) ∧
      ∀ e, (applyResults players ms sc = .error e ↔
        ∃ l1 m l2, ms = l1 ++ m :: l2 ∧
          (∀ m2 ∈ l1, scoreError m2.courtNumber (sc m2.courtNumber) = none) ∧
          scoreError m.courtNumber (sc m.courtNumber) = some e)) ∧
    (∀ court : ℕ, scoreError court none =
      some ("Missing score for court " ++ toString court)) ∧
    (∀ (court : ℕ) (score : MatchScore),
      (score.side1.isFinite = false ∨ score.side2.isFinite = false) →
      scoreError court (some score) =
        some ("Invalid score on court " ++ toString court)) ∧
    (∀ (court : ℕ) (a b : ℚ), a < 0 ∨ b < 0 →
      scoreError court (some ⟨.num a, .num b⟩) =
        some ("Negative score on court " ++ toString court)) ∧
    (∀ (court : ℕ) (a : ℚ), 0 ≤ a →
      scoreError court (some ⟨.num a, .num a⟩) =
        some ("Scores cannot be equal on court " ++ toString court)) ∧
    (∀ (court : ℕ) (a b : ℚ), 0 ≤ a → 0 ≤ b → a ≠ b →
      scoreError court (some ⟨.num a, .num b⟩) = none) := by
  refine ⟨fun players ms sc => ⟨applyResultsGo_ok_iff sc ms players,
      fun e => applyResultsGo_error_iff sc ms players e⟩, fun court => rfl,
    ?_, ?_, ?_, ?_⟩
  · intro court score h
    rcases score with ⟨a, b⟩
    rcases a with q1 | _ | _ | _ <;> rcases b with q2 | _ | _ | _ <;>
      simp_all [scoreError, JsNum.isFinite]
  · intro court a b h
    show (if a < 0 ∨ b < 0 then _ else _) = _
    rw [if_pos h]
  · intro court a h
    show (if a < 0 ∨ a < 0 then _ else _) = _
    rw [if_neg (by simpa using not_lt.mpr h), if_pos rfl]
  · intro court a b ha hb hne
    show (if a < 0 ∨ b < 0 then _ else _) = _
    rw [if_neg (by simp [not_lt.mpr ha, not_lt.mpr hb]), if_neg hne]

theorem applyResults_error_taxonomy_witness :
    applyResults ([] : List Player) [⟨1, [], []⟩] (fun _ => none) =
      .error ("Missing score for court " ++ toString 1) :=
  ((applyResults_error_taxonomy.1 [] [⟨1, [], []⟩] (fun _ => none)).2 _).mpr
    ⟨[], ⟨1, [], []⟩, [], rfl, by simp, rfl⟩

/-- C2: for a roster of distinct-id players and matches sharing no
participant, when every match's court has a valid score entry — present,
finite, non-negative and unequal on the two sides — `applyResults` succeeds,
keeps the roster's length, and with `diff = side1Score - side2Score` updates
every player of a match's side 1 to `pointDiff + diff` together with
`wins + 1, lossStreak = 0` when `diff > 0` and with `lossStreak + 1`
otherwise, and every player of side 2 to `pointDiff - diff` with the
symmetric win/streak update; in particular a 21–10 side-1 win gives the
side-1 players `wins + 1, pointDiff + 11, lossStreak = 0` and the side-2
players unchanged `wins`, `pointDiff - 11` and `lossStreak + 1`. -/
theorem applyResults_update_rule :
    (∀ (players : List Player) (ms : List Match) (sc : ℕ → Option MatchScore),
      (players.map Player.id).Nodup →
      (ms.flatMap matchIds).Nodup →
      (∀ m ∈ ms, scoreError m.courtNumber (sc m.courtNumber) = none) →
      ∃ out, applyResults players ms sc = .ok out ∧
        out.length = players.length ∧
        ∀ m ∈ ms, ∀ s1 s2 : ℚ, sc m.courtNumber = some ⟨.num s1, .num s2⟩ →
          ∀ (i : ℕ) (p q : Player), players[i]? = some p → p.id = q.id →
            (q ∈ m.side1 →
              out[i]? = some (if 0 < s1 - s2 then
                { p with wins := p.wins + 1, pointDiff := p.pointDiff + (s1 - s2), lossStreak := 0 }
              else
                { p with pointDiff := p.pointDiff + (s1 - s2), lossStreak := p.lossStreak + 1 })) ∧
            (q ∈ m.side2 →
              out[i]? = some (if 0 < s1 - s2 then
                { p with pointDiff := p.pointDiff - (s1 - s2), lossStreak := p.lossStreak + 1 }
              else
                { p with wins := p.wins + 1, pointDiff := p.pointDiff - (s1 - s2), lossStreak := 0 }))) ∧
    applyResults
      [⟨1, "A", 0, 0, 0⟩, ⟨2, "B", 1, 2, 0⟩, ⟨3, "C", 0, 0, 2⟩, ⟨4, "D", 5, -3, 1⟩]
      [⟨1, [⟨1, "A", 0, 0, 0⟩, ⟨2, "B", 1, 2, 0⟩], [⟨3, "C", 0, 0, 2⟩, ⟨4, "D", 5, -3, 1⟩]⟩]
      (fun c => if c = 1 then some ⟨.num 21, .num 10⟩ else none) =
      .ok [⟨1, "A", 1, 11, 0⟩, ⟨2, "B", 2, 13, 0⟩, ⟨3, "C", 0, -11, 3⟩,
        ⟨4, "D", 5, -14, 2⟩] := by
  constructor
  · intro players ms sc hids hmids hvalid
    obtain ⟨out, hok⟩ := (applyResultsGo_ok_iff sc ms players).mpr hvalid
    refine ⟨out, hok, applyResultsGo_ok_length sc ms players out hok, ?_⟩
    intro m hm s1 s2 hsc i p q hget hid
    constructor
    · intro hq
      have h := applyResultsGo_touched_side1 sc ms players out m s1 s2 i p q
        hids hmids hok hm hsc hq hget hid
      rw [h, side1Update_eq]
    · intro hq
      have h := applyResultsGo_touched_side2 sc ms players out m s1 s2 i p q
        hids hmids hok hm hsc hq hget hid
      rw [h, side2Update_eq]
  · with_unfolding_all rfl

theorem applyResults_update_rule_witness :
    ∃ out,
      applyResults
        [⟨1, "A", 0, 0, 0⟩, ⟨2, "B", 1, 2, 0⟩, ⟨3, "C", 0, 0, 2⟩, ⟨4, "D", 5, -3, 1⟩]
        [⟨1, [⟨1, "A", 0, 0, 0⟩, ⟨2, "B", 1, 2, 0⟩], [⟨3, "C", 0, 0, 2⟩, ⟨4, "D", 5, -3, 1⟩]⟩]
        (fun c => if c = 1 then some ⟨.num 21, .num 10⟩ else none) = .ok out ∧
      out.length = 4 ∧
      out[0]? = some ⟨1, "A", 1, 11, 0⟩ ∧
      out[2]? = some ⟨3, "C", 0, -11, 3⟩ := by
  obtain ⟨out, hok, hlen, hupd⟩ :=
    applyResults_update_rule.1
      [⟨1, "A", 0, 0, 0⟩, ⟨2, "B", 1, 2, 0⟩, ⟨3, "C", 0, 0, 2⟩, ⟨4, "D", 5, -3, 1⟩]
      [⟨1, [⟨1, "A", 0, 0, 0⟩, ⟨2, "B", 1, 2, 0⟩], [⟨3, "C", 0, 0, 2⟩, ⟨4, "D", 5, -3, 1⟩]⟩]
      (fun c => if c = 1 then some ⟨.num 21, .num 10⟩ else none)
      (by decide) (by decide) (by decide)
  have h0 := (hupd _ (List.mem_singleton.mpr rfl) 21 10 rfl 0
    ⟨1, "A", 0, 0, 0⟩ ⟨1, "A", 0, 0, 0⟩ rfl rfl).1 (by decide)
  have h2 := (hupd _ (List.mem_singleton.mpr rfl) 21 10 rfl 2
    ⟨3, "C", 0, 0, 2⟩ ⟨3, "C", 0, 0, 2⟩ rfl rfl).2 (by decide)
  rw [if_pos (by norm_num)] at h0 h2
  refine ⟨out, hok, hlen, ?_, ?_⟩
  · rw [h0]
    norm_num
  · rw [h2]
    norm_num

/-- C6: `sortLeaderboard` is a pure deterministic sort under the comparator
`wins` descending, then `pointDiff` descending, then name ascending by the
supplied string comparison: whenever that comparison is total and transitive
at `≤ 0` the result is a permutation of the input sorted by the comparator,
the comparator accepts `(a, b)` exactly in the stated lexicographic order,
and ranking Bob (2 wins, +5), Alice (2, +5), Zed (3, −10), Cara (2, +10)
under case-sensitive code-point comparison yields [Zed, Cara, Alice, Bob]. -/
theorem sortLeaderboard_total_order :
    (∀ lc : String → String → Int,
      (∀ s t, lc s t ≤ 0 ∨ lc t s ≤ 0) →
      (∀ s t u, lc s t ≤ 0 → lc t u ≤ 0 → lc s u ≤ 0) →
      ∀ players : List Player,
        (sortLeaderboard lc players).Perm players ∧
        (sortLeaderboard lc players).Sorted
          (fun a b => leaderboardCmp lc a b ≤ 0)) ∧
    (∀ (lc : String → String → Int) (a b : Player),
      leaderboardCmp lc a b ≤ 0 ↔
        (b.wins < a.wins ∨
          (b.wins = a.wins ∧ b.pointDiff < a.pointDiff) ∨
          (b.wins = a.wins ∧ b.pointDiff = a.pointDiff ∧ lc a.name b.name ≤ 0))) ∧
    sortLeaderboard strCmpInt
      [⟨1, "Bob", 2, 5, 0⟩, ⟨2, "Alice", 2, 5, 0⟩, ⟨3, "Zed", 3, -10, 0⟩,
        ⟨4, "Cara", 2, 10, 0⟩] =
      [⟨3, "Zed", 3, -10, 0⟩, ⟨4, "Cara", 2, 10, 0⟩, ⟨2, "Alice", 2, 5, 0⟩,
        ⟨1, "Bob", 2, 5, 0⟩] := by
  refine ⟨?_, leaderboardCmp_le_iff, by with_unfolding_all decide⟩
  intro lc htot htrans players
  haveI : IsTotal Player (fun a b => leaderboardCmp lc a b ≤ 0) :=
    ⟨leaderboardCmp_total lc htot⟩
  haveI : IsTrans Player (fun a b => leaderboardCmp lc a b ≤ 0) :=
    ⟨leaderboardCmp_trans lc htrans⟩
  exact ⟨List.perm_insertionSort _ _, List.sorted_insertionSort _ _⟩

theorem sortLeaderboard_total_order_witness :
    (sortLeaderboard strCmpInt
      [⟨1, "Bob", 2, 5, 0⟩, ⟨3, "Zed", 3, -10, 0⟩]).Perm
      [⟨1, "Bob", 2, 5, 0⟩, ⟨3, "Zed", 3, -10, 0⟩] ∧
    (sortLeaderboard strCmpInt
      [⟨1, "Bob", 2, 5, 0⟩, ⟨3, "Zed", 3, -10, 0⟩]).Sorted
      (fun a b => leaderboardCmp strCmpInt a b ≤ 0) :=
  sortLeaderboard_total_order.1 strCmpInt strCmpInt_total strCmpInt_trans
    [⟨1, "Bob", 2, 5, 0⟩, ⟨3, "Zed", 3, -10, 0⟩]

end XmasBadminton
